import Mathlib

/-!
Verification of the MAPF repository (map_ten package) against its
natural-language specification.

The Python sources are shallowly embedded: coordinates are integer pairs
(`Int × Int`), Python dicts become association lists with overwrite-in-place
update semantics, Python sets become lists queried only through membership,
and fallible code returns `Option`/`Except`.  The external `networkx`
algorithms (`shortest_simple_paths`, `network_simplex`) are not part of the
repository; where a claim depends on them they are modelled from the spec
(marked in their doc comments) or abstracted as oracles.
-/

/-- World-space coordinate, an integer pair `(x, y)` (`Coordinate` in the
Python sources). -/
abbrev Coord := Int × Int

namespace MapTen

/-! ## Reservation table (`reservation_table.py`) -/

/-- Embedding of `ReservationTable._table`: a Python dict
`(Coordinate, time) -> agent` as an association list with unique keys kept in
insertion order. -/
abbrev RTable := List ((Coord × Nat) × String)

/-- Python dict assignment `table[key] = agent`: overwrite the entry holding
the key if present (a dict holds each key once), otherwise append. -/
def tableAssign : RTable → Coord × Nat → String → RTable
  | [], key, agent => [(key, agent)]
  | e :: rest, key, agent =>
    if e.1 = key then (key, agent) :: rest else e :: tableAssign rest key agent

/-- Python dict lookup `table.get(key)` (also backs `key in table`). -/
def tableLookup (tbl : RTable) (key : Coord × Nat) : Option String :=
  (tbl.find? (fun e => decide (e.1 = key))).map (·.2)

/-- Embedding of `ReservationTable.reserve`: `for t, node in enumerate(path):
table[(node, t)] = agent`. -/
def reserve (tbl : RTable) (agent : String) (path : List Coord) : RTable :=
  path.enum.foldl (fun tbl tn => tableAssign tbl (tn.2, tn.1) agent) tbl

/-- Embedding of `ReservationTable.is_reserved`: `(node, time) in table`. -/
def isReserved (tbl : RTable) (node : Coord) (time : Nat) : Bool :=
  (tableLookup tbl (node, time)).isSome

/-- Embedding of `ReservationTable.lock_ahead`: `for t, node in
enumerate(path[:steps]): table[(node, t)] = agent`. -/
def lockAhead (tbl : RTable) (agent : String) (path : List Coord) (steps : Nat) :
    RTable :=
  (path.take steps).enum.foldl (fun tbl tn => tableAssign tbl (tn.2, tn.1) agent) tbl

theorem tableLookup_nil (key : Coord × Nat) : tableLookup [] key = none := rfl

theorem tableLookup_cons (e : (Coord × Nat) × String) (rest : RTable)
    (key : Coord × Nat) :
    tableLookup (e :: rest) key =
      if e.1 = key then some e.2 else tableLookup rest key := by
  by_cases h : e.1 = key <;> simp [tableLookup, List.find?_cons, h]

theorem tableLookup_assign (tbl : RTable) (key key' : Coord × Nat) (agent : String) :
    tableLookup (tableAssign tbl key agent) key' =
      if key' = key then some agent else tableLookup tbl key' := by
  induction tbl with
  | nil =>
    show tableLookup ((key, agent) :: []) key' = _
    rw [tableLookup_cons]
    by_cases h : key' = key
    · rw [if_pos h.symm, if_pos h]
    · rw [if_neg (fun hh : (key, agent).1 = key' => h hh.symm), if_neg h]
  | cons e rest ih =>
    by_cases he : e.1 = key
    · have hrw : tableAssign (e :: rest) key agent = (key, agent) :: rest := by
        simp [tableAssign, he]
      rw [hrw, tableLookup_cons, tableLookup_cons]
      by_cases h : key' = key
      · rw [if_pos (show (key, agent).1 = key' from h.symm), if_pos h]
      · rw [if_neg (show ¬ (key, agent).1 = key' from fun hh => h hh.symm), if_neg h,
          if_neg (show ¬ e.1 = key' from fun hh => h (he.symm.trans hh).symm)]
    · have hrw : tableAssign (e :: rest) key agent = e :: tableAssign rest key agent := by
        simp [tableAssign, he]
      rw [hrw, tableLookup_cons, tableLookup_cons, ih]
      by_cases hq : key' = key
      · by_cases hk : e.1 = key'
        · exact absurd (hk.trans hq) he
        · rw [if_neg hk, if_pos hq, if_pos hq]
      · rw [if_neg hq, if_neg hq]

/-- Helper for reasoning about the `enumerate` fold of `reserve`: folding the
assignments of `path` indexed from `i`. -/
theorem tableLookup_reserveFrom (agent : String) (path : List Coord)
    (i : Nat) (tbl : RTable) (key : Coord × Nat) :
    tableLookup ((path.enumFrom i).foldl
        (fun tbl tn => tableAssign tbl (tn.2, tn.1) agent) tbl) key =
      if key.2 ≥ i ∧ path.get? (key.2 - i) = some key.1 then some agent
      else tableLookup tbl key := by
  induction path generalizing i tbl with
  | nil => simp [List.enumFrom]
  | cons c rest ih =>
    simp only [List.enumFrom, List.foldl_cons]
    rw [ih (i + 1)]
    by_cases hr : key.2 ≥ i + 1 ∧ rest.get? (key.2 - (i + 1)) = some key.1
    · have hr2 : key.2 ≥ i ∧ (c :: rest).get? (key.2 - i) = some key.1 := by
        obtain ⟨h1, h2⟩ := hr
        refine ⟨by omega, ?_⟩
        have hidx : key.2 - i = (key.2 - (i + 1)) + 1 := by omega
        rw [hidx, List.get?_cons_succ]
        exact h2
      rw [if_pos hr, if_pos hr2]
    · rw [if_neg hr, tableLookup_assign]
      by_cases hc : key = (c, i)
      · have h0 : key.2 ≥ i ∧ (c :: rest).get? (key.2 - i) = some key.1 := by
          subst hc
          exact ⟨le_refl i, by rw [Nat.sub_self, List.get?_cons_zero]⟩
        rw [if_pos hc, if_pos h0]
      · have h0 : ¬ (key.2 ≥ i ∧ (c :: rest).get? (key.2 - i) = some key.1) := by
          rintro ⟨h1, h2⟩
          rcases Nat.eq_or_lt_of_le h1 with heq | hlt
          · rw [← heq, Nat.sub_self, List.get?_cons_zero] at h2
            exact hc (Prod.ext (Option.some.inj h2).symm heq.symm)
          · apply hr
            refine ⟨hlt, ?_⟩
            have hidx : key.2 - i = (key.2 - (i + 1)) + 1 := by omega
            rw [hidx, List.get?_cons_succ] at h2
            exact h2
        rw [if_neg hc, if_neg h0]

/-- Lookup characterization of `reserve`: the pair `(path[t], t)` maps to the
given agent for every index `t` of the path (last writer wins over the prior
table), and every other key is untouched. -/
theorem tableLookup_reserve (tbl : RTable) (agent : String) (path : List Coord)
    (key : Coord × Nat) :
    tableLookup (reserve tbl agent path) key =
      if path.get? key.2 = some key.1 then some agent else tableLookup tbl key := by
  unfold reserve
  rw [List.enum_eq_enumFrom, tableLookup_reserveFrom]
  simp

/-- Lookup characterization of `lockAhead`: exactly the first `steps`
coordinates of the path become reserved at times `0 .. steps-1`; every other
key keeps its previous binding. -/
theorem tableLookup_lockAhead (tbl : RTable) (agent : String) (path : List Coord)
    (steps : Nat) (key : Coord × Nat) :
    tableLookup (lockAhead tbl agent path steps) key =
      if key.2 < steps ∧ path.get? key.2 = some key.1 then some agent
      else tableLookup tbl key := by
  unfold lockAhead
  rw [List.enum_eq_enumFrom, tableLookup_reserveFrom]
  simp only [Nat.sub_zero, ge_iff_le, Nat.zero_le, true_and]
  have : (path.take steps).get? key.2 = some key.1 ↔
      key.2 < steps ∧ path.get? key.2 = some key.1 := by
    constructor
    · intro h
      have hlt : key.2 < (path.take steps).length := (List.get?_eq_some.mp h).1
      rw [List.length_take] at hlt
      refine ⟨lt_of_lt_of_le hlt (min_le_left _ _), ?_⟩
      rwa [List.get?_take (lt_of_lt_of_le hlt (min_le_left _ _))] at h
    · intro ⟨h1, h2⟩
      rwa [List.get?_take h1]
  by_cases h : (path.take steps).get? key.2 = some key.1
  · rw [if_pos h, if_pos (this.mp h)]
  · rw [if_neg h, if_neg (fun hc => h (this.mpr hc))]

/-- C9: `reserve` records occupancy of `path[t]` at time `t` for every index
`t`, overwriting any prior reservation at the same key (last writer wins);
`is_reserved` answers exactly whether some reservation exists at the pair;
`lock_ahead` reserves exactly the first `N` path coordinates at times
`0..N-1` and leaves every other key (in particular the rest of the path)
untouched.  The spec's concrete examples hold: after
`reserve("A", [(0,0),(40,0),(80,0)])` the pair `((40,0),1)` is reserved and
`((40,0),0)` is not, and after `lock_ahead("B", [(0,0),(40,0)], 1)` from an
empty table only `(0,0)` at `t=0` is reserved, not `(40,0)` at `t=1`. -/
theorem claim_C9_reservation_table :
    (∀ (tbl : RTable) (agent : String) (path : List Coord) (key : Coord × Nat),
      tableLookup (reserve tbl agent path) key =
        if path.get? key.2 = some key.1 then some agent else tableLookup tbl key) ∧
    (∀ (tbl : RTable) (node : Coord) (time : Nat),
      isReserved tbl node time = (tableLookup tbl (node, time)).isSome) ∧
    (∀ (tbl : RTable) (agent : String) (path : List Coord) (steps : Nat)
        (key : Coord × Nat),
      tableLookup (lockAhead tbl agent path steps) key =
        if key.2 < steps ∧ path.get? key.2 = some key.1 then some agent
        else tableLookup tbl key) ∧
    (isReserved (reserve [] "A" [((0:Int),(0:Int)), (40,0), (80,0)]) (40,0) 1 = true ∧
     isReserved (reserve [] "A" [((0:Int),(0:Int)), (40,0), (80,0)]) (40,0) 0 = false ∧
     isReserved (lockAhead [] "B" [((0:Int),(0:Int)), (40,0)] 1) (0,0) 0 = true ∧
     isReserved (lockAhead [] "B" [((0:Int),(0:Int)), (40,0)] 1) (40,0) 1 = false) :=
  ⟨tableLookup_reserve, fun _ _ _ => rfl, tableLookup_lockAhead,
   by decide, by decide, by decide, by decide⟩

/-! ## Graph builder (`graph_builder.py`)

`networkx.Graph` is embedded as an insertion-ordered node list plus an
insertion-ordered edge list holding one record per unordered endpoint pair.
`add_edge` adds missing endpoints as nodes and overwrites the weight of an
existing edge on the same unordered pair (keeping its stored orientation),
exactly as the `networkx` dict-of-dicts structure behaves. -/

/-- Line segment: a pair of endpoint coordinates. -/
abbrev Segment := Coord × Coord

/-- Undirected weighted graph (embedding of `networkx.Graph` restricted to
the operations the repository uses). -/
structure UGraph where
  nodes : List Coord
  edges : List ((Coord × Coord) × Int)
deriving DecidableEq

/-- Decides whether two unordered endpoint pairs coincide. -/
def sameKey (p q : Coord × Coord) : Bool :=
  (p == q) || (p == (q.2, q.1))

/-- Membership-preserving node insertion (`networkx` keeps each node once,
in first-insertion order). -/
def addNode (g : UGraph) (u : Coord) : UGraph :=
  if u ∈ g.nodes then g else { g with nodes := g.nodes ++ [u] }

/-- Embedding of `Graph.add_edge(u, v, weight=w)`: both endpoints become
nodes (`add_node` leaves the edge structure untouched); an existing edge on
the same unordered pair has its weight replaced, keeping its stored
orientation, otherwise the edge is appended. -/
def addEdgeU (g : UGraph) (u v : Coord) (w : Int) : UGraph where
  nodes := (addNode (addNode g u) v).nodes
  edges :=
    if g.edges.any (fun e => sameKey e.1 (u, v)) then
      g.edges.map (fun e => if sameKey e.1 (u, v) then (e.1, w) else e)
    else
      g.edges ++ [((u, v), w)]

/-- Weight lookup for the unordered pair `{u, v}` (the `networkx` edge-data
access backing `graph.edges`). -/
def findEdgeW (g : UGraph) (u v : Coord) : Option Int :=
  (g.edges.find? (fun e => sameKey e.1 (u, v))).map (·.2)

/-- Manhattan distance between two coordinates; the edge weight
`abs(x1 - x2) + abs(y1 - y2)` computed by `lines_to_graph`. -/
def manhattan (u v : Coord) : Int :=
  |u.1 - v.1| + |u.2 - v.2|

/-- Embedding of `lines_to_graph`: fold `add_edge` with the Manhattan
weight over the segment list, starting from the empty graph. -/
def linesToGraph (lines : List Segment) : UGraph :=
  lines.foldl (fun g s => addEdgeU g s.1 s.2 (manhattan s.1 s.2)) ⟨[], []⟩

theorem sameKey_iff (p q : Coord × Coord) :
    sameKey p q = true ↔ p = q ∨ p = (q.2, q.1) := by
  simp [sameKey]

theorem manhattan_comm (u v : Coord) : manhattan u v = manhattan v u := by
  simp [manhattan, abs_sub_comm]

theorem mem_addNode (g : UGraph) (u c : Coord) :
    c ∈ (addNode g u).nodes ↔ c ∈ g.nodes ∨ c = u := by
  unfold addNode
  by_cases h : u ∈ g.nodes
  · rw [if_pos h]
    constructor
    · exact Or.inl
    · rintro (hc | rfl) <;> [exact hc; exact h]
  · rw [if_neg h]
    simp [List.mem_append]

theorem mem_addEdgeU (g : UGraph) (u v c : Coord) (w : Int) :
    c ∈ (addEdgeU g u v w).nodes ↔ c ∈ g.nodes ∨ c = u ∨ c = v := by
  show c ∈ (addNode (addNode g u) v).nodes ↔ _
  rw [mem_addNode, mem_addNode]
  tauto

theorem sameKey_refl (p : Coord × Coord) : sameKey p p = true := by
  simp [sameKey]

theorem sameKey_symm {p q : Coord × Coord} (h : sameKey p q = true) :
    sameKey q p = true := by
  rw [sameKey_iff] at h ⊢
  rcases h with h | h
  · exact Or.inl h.symm
  · right
    rw [h]

theorem sameKey_trans {p q r : Coord × Coord} (h1 : sameKey p q = true)
    (h2 : sameKey q r = true) : sameKey p r = true := by
  rw [sameKey_iff] at h1 h2 ⊢
  rcases h1 with h1 | h1 <;> rcases h2 with h2 | h2 <;> subst h1 <;> subst h2 <;> simp

theorem edges_addNode (g : UGraph) (u : Coord) : (addNode g u).edges = g.edges := by
  unfold addNode
  split <;> rfl

/-- Replacement branch of `add_edge`, when the target pair already matches the
looked-up pair: the lookup returns the fresh weight. -/
theorem find_replace_pos (edges : List ((Coord × Coord) × Int)) (u v a b : Coord)
    (w : Int) (hk : sameKey (u, v) (a, b) = true)
    (hmem : edges.any (fun e => sameKey e.1 (u, v)) = true) :
    ((edges.map (fun e => if sameKey e.1 (u, v) then (e.1, w) else e)).find?
        (fun e => sameKey e.1 (a, b))).map (·.2) = some w := by
  induction edges with
  | nil => simp at hmem
  | cons e rest ih =>
    by_cases he : sameKey e.1 (u, v) = true
    · have ht : sameKey e.1 (a, b) = true := sameKey_trans he hk
      simp [List.find?_cons, he, ht, -List.find?_map]
    · have ht : sameKey e.1 (a, b) = false := by
        rw [Bool.eq_false_iff]
        intro hc
        exact he (sameKey_trans hc (sameKey_symm hk))
      simp only [List.any_cons, (Bool.eq_false_iff.mpr he), Bool.false_or] at hmem
      simp [List.find?_cons, he, ht, ih hmem, -List.find?_map]

/-- Replacement branch of `add_edge`, when the target pair differs from the
looked-up pair: the lookup is unchanged. -/
theorem find_replace_neg (edges : List ((Coord × Coord) × Int)) (u v a b : Coord)
    (w : Int) (hk : sameKey (u, v) (a, b) = false) :
    ((edges.map (fun e => if sameKey e.1 (u, v) then (e.1, w) else e)).find?
        (fun e => sameKey e.1 (a, b))).map (·.2) =
      (edges.find? (fun e => sameKey e.1 (a, b))).map (·.2) := by
  induction edges with
  | nil => rfl
  | cons e rest ih =>
    by_cases ht : sameKey e.1 (a, b) = true
    · have he : sameKey e.1 (u, v) = false := by
        rw [Bool.eq_false_iff]
        intro hc
        exact Bool.noConfusion ((sameKey_trans (sameKey_symm hc) ht).symm.trans hk)
      simp [List.find?_cons, he, ht, -List.find?_map]
    · by_cases he : sameKey e.1 (u, v) = true <;>
        simp [List.find?_cons, he, ht, ih, -List.find?_map]

/-- Lookup after `add_edge`: the unordered pair `{u, v}` now maps to `w`,
every other pair keeps its old binding. -/
theorem findEdgeW_addEdgeU (g : UGraph) (u v a b : Coord) (w : Int) :
    findEdgeW (addEdgeU g u v w) a b =
      if sameKey (u, v) (a, b) then some w else findEdgeW g a b := by
  show ((if g.edges.any (fun e => sameKey e.1 (u, v)) then
      g.edges.map (fun e => if sameKey e.1 (u, v) then (e.1, w) else e)
    else g.edges ++ [((u, v), w)]).find? (fun e => sameKey e.1 (a, b))).map (·.2) = _
  by_cases hmem : g.edges.any (fun e => sameKey e.1 (u, v)) = true
  · rw [if_pos hmem]
    by_cases hk : sameKey (u, v) (a, b) = true
    · rw [if_pos hk]
      exact find_replace_pos g.edges u v a b w hk hmem
    · rw [if_neg hk]
      exact find_replace_neg g.edges u v a b w (Bool.eq_false_iff.mpr hk)
  · rw [if_neg hmem, List.find?_append]
    have hnone : g.edges.find? (fun e => sameKey e.1 (a, b)) = none ∨
        sameKey (u, v) (a, b) = false := by
      by_cases hk : sameKey (u, v) (a, b) = true
      · left
        rw [List.find?_eq_none]
        intro x hx hpx
        exact hmem (List.any_eq_true.mpr ⟨x, hx, sameKey_trans hpx (sameKey_symm hk)⟩)
      · exact Or.inr (Bool.eq_false_iff.mpr hk)
    by_cases hk : sameKey (u, v) (a, b) = true
    · rcases hnone with hnone | hfalse
      · rw [hnone]
        simp [List.find?_cons, hk]
      · exact absurd hk (by simp [hfalse])
    · have hfalse : sameKey (u, v) (a, b) = false := Bool.eq_false_iff.mpr hk
      rw [if_neg hk]
      have : List.find? (fun e => sameKey e.1 (a, b)) [((u, v), w)] = none := by
        simp [List.find?_cons, hfalse]
      rw [this, Option.or_none]
      rfl

/-- A segment whose unordered endpoint pair is `{a, b}` has Manhattan weight
equal to `manhattan a b`. -/
theorem manhattan_of_sameKey {s : Coord × Coord} {a b : Coord}
    (h : sameKey s (a, b) = true) : manhattan s.1 s.2 = manhattan a b := by
  rcases (sameKey_iff s (a, b)).mp h with h | h <;> subst h
  · rfl
  · exact manhattan_comm b a

/-- Edge lookup over the whole `lines_to_graph` fold: the unordered pair
`{a, b}` is bound exactly when some segment of the processed list carries it,
and then the weight is the Manhattan distance. -/
theorem findEdgeW_foldSegments (L : List Segment) (g : UGraph) (a b : Coord) :
    findEdgeW (L.foldl (fun g s => addEdgeU g s.1 s.2 (manhattan s.1 s.2)) g) a b =
      if L.any (fun s => sameKey s (a, b)) then some (manhattan a b)
      else findEdgeW g a b := by
  induction L generalizing g with
  | nil => simp
  | cons s rest ih =>
    simp only [List.foldl_cons, List.any_cons]
    rw [ih]
    by_cases hr : rest.any (fun s => sameKey s (a, b)) = true
    · rw [if_pos hr, if_pos (by simp [hr])]
    · have hr' : rest.any (fun s => sameKey s (a, b)) = false := Bool.eq_false_iff.mpr hr
      rw [if_neg hr, findEdgeW_addEdgeU]
      by_cases hs : sameKey (s.1, s.2) (a, b) = true
      · rw [if_pos hs, if_pos (by simp [hr', hs] : (sameKey s (a, b) || rest.any fun s => sameKey s (a, b)) = true),
          manhattan_of_sameKey (hs : sameKey s (a, b) = true)]
      · rw [if_neg hs, if_neg (by simp [hr'] ; exact Bool.eq_false_iff.mpr hs)]

/-- Node membership over the whole `lines_to_graph` fold: the nodes are the
starting nodes plus every endpoint of a processed segment. -/
theorem mem_nodes_foldSegments (L : List Segment) (g : UGraph) (c : Coord) :
    c ∈ (L.foldl (fun g s => addEdgeU g s.1 s.2 (manhattan s.1 s.2)) g).nodes ↔
      c ∈ g.nodes ∨ ∃ s ∈ L, c = s.1 ∨ c = s.2 := by
  induction L generalizing g with
  | nil => simp
  | cons s rest ih =>
    simp only [List.foldl_cons]
    rw [ih, mem_addEdgeU]
    simp only [List.mem_cons]
    constructor
    · rintro ((h | h | h) | ⟨t, ht, hc⟩)
      · exact Or.inl h
      · exact Or.inr ⟨s, Or.inl rfl, Or.inl h⟩
      · exact Or.inr ⟨s, Or.inl rfl, Or.inr h⟩
      · exact Or.inr ⟨t, Or.inr ht, hc⟩
    · rintro (h | ⟨t, (rfl | ht), hc⟩)
      · exact Or.inl (Or.inl h)
      · exact Or.inl (Or.inr hc)
      · exact Or.inr ⟨t, ht, hc⟩

/-- Pairwise distinctness of the unordered keys in the edge list is
preserved by `add_edge`. -/
theorem keysOk_addEdgeU (g : UGraph) (u v : Coord) (w : Int)
    (h : g.edges.Pairwise (fun e1 e2 => sameKey e1.1 e2.1 = false)) :
    (addEdgeU g u v w).edges.Pairwise (fun e1 e2 => sameKey e1.1 e2.1 = false) := by
  show (if g.edges.any (fun e => sameKey e.1 (u, v)) then
      g.edges.map (fun e => if sameKey e.1 (u, v) then (e.1, w) else e)
    else g.edges ++ [((u, v), w)]).Pairwise _
  by_cases hmem : g.edges.any (fun e => sameKey e.1 (u, v)) = true
  · rw [if_pos hmem, List.pairwise_map]
    refine h.imp ?_
    intro e1 e2 h12
    by_cases h1 : sameKey e1.1 (u, v) = true <;> by_cases h2 : sameKey e2.1 (u, v) = true <;>
      simp [h1, h2, h12]
  · rw [if_neg hmem, List.pairwise_append]
    refine ⟨h, List.pairwise_singleton _ _, ?_⟩
    intro e1 h1 e2 h2
    rw [List.mem_singleton] at h2
    subst h2
    rw [Bool.eq_false_iff]
    intro hc
    exact hmem (List.any_eq_true.mpr ⟨e1, h1, hc⟩)

/-- Kept keys are pairwise distinct for every graph `lines_to_graph` builds. -/
theorem keysOk_foldSegments (L : List Segment) (g : UGraph)
    (h : g.edges.Pairwise (fun e1 e2 => sameKey e1.1 e2.1 = false)) :
    (L.foldl (fun g s => addEdgeU g s.1 s.2 (manhattan s.1 s.2)) g).edges.Pairwise
      (fun e1 e2 => sameKey e1.1 e2.1 = false) := by
  induction L generalizing g with
  | nil => exact h
  | cons s rest ih => exact ih _ (keysOk_addEdgeU _ _ _ _ h)

/-- A list whose members pairwise never both satisfy `p` keeps at most one
element after filtering with `p`. -/
theorem length_filter_le_one {α : Type} (p : α → Bool) (l : List α)
    (h : l.Pairwise (fun a b => ¬ (p a = true ∧ p b = true))) :
    (l.filter p).length ≤ 1 := by
  induction l with
  | nil => simp
  | cons a rest ih =>
    rw [List.pairwise_cons] at h
    by_cases hp : p a = true
    · have hrest : rest.filter p = [] := by
        rw [List.filter_eq_nil]
        intro b hb hpb
        exact h.1 b hb ⟨hp, hpb⟩
      simp [List.filter_cons, hp, hrest]
    · simp only [List.filter_cons, hp]
      simpa using ih h.2

/-- Re-adding the same edge is a no-op (dict overwrite with the same
weight). -/
theorem addEdgeU_idem (g : UGraph) (u v : Coord) (w : Int) :
    addEdgeU (addEdgeU g u v w) u v w = addEdgeU g u v w := by
  have hu : u ∈ (addEdgeU g u v w).nodes :=
    (mem_addEdgeU g u v u w).mpr (Or.inr (Or.inl rfl))
  have hv : v ∈ (addEdgeU g u v w).nodes :=
    (mem_addEdgeU g u v v w).mpr (Or.inr (Or.inr rfl))
  have hN : (addNode (addNode (addEdgeU g u v w) u) v).nodes = (addEdgeU g u v w).nodes := by
    rw [show addNode (addEdgeU g u v w) u = addEdgeU g u v w from if_pos hu]
    exact congrArg UGraph.nodes (if_pos hv)
  have hE : (addEdgeU (addEdgeU g u v w) u v w).edges = (addEdgeU g u v w).edges := by
    show (if (addEdgeU g u v w).edges.any (fun e => sameKey e.1 (u, v)) then
        (addEdgeU g u v w).edges.map (fun e => if sameKey e.1 (u, v) then (e.1, w) else e)
      else (addEdgeU g u v w).edges ++ [((u, v), w)]) = _
    by_cases hmem : g.edges.any (fun e => sameKey e.1 (u, v)) = true
    · have h1 : (addEdgeU g u v w).edges =
          g.edges.map (fun e => if sameKey e.1 (u, v) then (e.1, w) else e) := by
        show (if g.edges.any (fun e => sameKey e.1 (u, v)) then _ else _) = _
        rw [if_pos hmem]
      have hany : (addEdgeU g u v w).edges.any (fun e => sameKey e.1 (u, v)) = true := by
        rw [h1, List.any_map]
        rcases List.any_eq_true.mp hmem with ⟨e, he, hpe⟩
        refine List.any_eq_true.mpr ⟨e, he, ?_⟩
        simp only [Function.comp]
        simp [hpe]
      rw [if_pos hany, h1, List.map_map]
      refine List.map_congr_left ?_
      intro e _
      simp only [Function.comp]
      by_cases hc : sameKey e.1 (u, v) = true <;> simp [hc]
    · have h1 : (addEdgeU g u v w).edges = g.edges ++ [((u, v), w)] := by
        show (if g.edges.any (fun e => sameKey e.1 (u, v)) then _ else _) = _
        rw [if_neg hmem]
      have hany : (addEdgeU g u v w).edges.any (fun e => sameKey e.1 (u, v)) = true := by
        rw [h1, List.any_append]
        simp [sameKey_refl]
      rw [if_pos hany, h1, List.map_append]
      have hleft : g.edges.map (fun e => if sameKey e.1 (u, v) then (e.1, w) else e) =
          g.edges := by
        have : ∀ e ∈ g.edges, (if sameKey e.1 (u, v) then ((e.1, w) : (Coord × Coord) × Int) else e) = e := by
          intro e he
          rw [if_neg]
          intro hc
          exact hmem (List.any_eq_true.mpr ⟨e, he, hc⟩)
        rw [List.map_congr_left this]
        simp
      rw [hleft]
      simp [sameKey_refl]
  show UGraph.mk (addNode (addNode (addEdgeU g u v w) u) v).nodes
      (addEdgeU (addEdgeU g u v w) u v w).edges = addEdgeU g u v w
  rw [hN, hE]

/-- C3: `lines_to_graph` returns the undirected graph whose nodes are exactly
the endpoint coordinates of the segments; each unordered endpoint pair
occurring in the list carries exactly one edge, weighted by the Manhattan
distance between the endpoints (so duplicate segments collapse to one edge,
whose weight — determined by the endpoints — is that of the most recently
processed copy); building from a duplicated segment yields the same graph as
from a single copy. -/
theorem claim_C3_lines_to_graph :
    (∀ (L : List Segment) (c : Coord),
      c ∈ (linesToGraph L).nodes ↔ ∃ s ∈ L, c = s.1 ∨ c = s.2) ∧
    (∀ (L : List Segment) (a b : Coord),
      findEdgeW (linesToGraph L) a b =
        if L.any (fun s => sameKey s (a, b)) then some (manhattan a b) else none) ∧
    (∀ (L : List Segment) (a b : Coord),
      ((linesToGraph L).edges.filter (fun e => sameKey e.1 (a, b))).length ≤ 1) ∧
    (∀ s : Segment, linesToGraph [s, s] = linesToGraph [s]) := by
  refine ⟨?_, ?_, ?_, ?_⟩
  · intro L c
    have h := mem_nodes_foldSegments L ⟨[], []⟩ c
    simpa [linesToGraph] using h
  · intro L a b
    have h := findEdgeW_foldSegments L ⟨[], []⟩ a b
    simpa [linesToGraph, findEdgeW] using h
  · intro L a b
    refine length_filter_le_one _ _
      ((keysOk_foldSegments L ⟨[], []⟩ List.Pairwise.nil).imp ?_)
    intro e1 e2 h12
    rintro ⟨h1, h2⟩
    exact Bool.noConfusion ((sameKey_trans h1 (sameKey_symm h2)).symm.trans h12)
  · intro s
    exact addEdgeU_idem ⟨[], []⟩ s.1 s.2 (manhattan s.1 s.2)

/-! ## Occupancy-grid export (`map_io.py`, `export_occupancy_grid`)

Python's `int(a / b)` (float division then `int`) truncates the quotient
toward zero, which is `Int.tdiv`; for non-negative operands it agrees with
flooring. -/

/-- Geometry content of a loaded map as consumed by
`export_occupancy_grid`: line segments, point nodes and obstacle rectangles
`(x1, y1, x2, y2)`. -/
structure MapData where
  lines : List Segment
  nodes : List Coord
  obstacles : List (Int × Int × Int × Int)
deriving DecidableEq

/-- Accumulated `max_x` of `export_occupancy_grid`: seeded with `0`, folded
over every x coordinate of lines, nodes and obstacles. -/
def gridMaxX (m : MapData) : Int :=
  let m1 := m.lines.foldl (fun acc s => max acc (max s.1.1 s.2.1)) 0
  let m2 := m.nodes.foldl (fun acc p => max acc p.1) m1
  m.obstacles.foldl (fun acc r => max acc (max r.1 r.2.2.1)) m2

/-- Accumulated `max_y` of `export_occupancy_grid`: seeded with `0`, folded
over every y coordinate of lines, nodes and obstacles. -/
def gridMaxY (m : MapData) : Int :=
  let m1 := m.lines.foldl (fun acc s => max acc (max s.1.2 s.2.2)) 0
  let m2 := m.nodes.foldl (fun acc p => max acc p.2) m1
  m.obstacles.foldl (fun acc r => max acc (max r.2.1 r.2.2.2)) m2

/-- Integer interval `[a..b]` as a list, the embedding of
`range(a, b + 1)` over possibly negative bounds. -/
def intRange (a b : Int) : List Int :=
  (List.range (b + 1 - a).toNat).map (fun (i : Nat) => a + (i : Int))

/-- Write `1` into `grid[gy][gx]` (out-of-range indices leave the grid
unchanged, matching the bounds guard upstream). -/
def setCell : List (List Nat) → Nat → Nat → List (List Nat)
  | [], _, _ => []
  | row :: rest, 0, gx => row.set gx 1 :: rest
  | row :: rest, gy + 1, gx => row :: setCell rest gy gx

/-- Inner loops of `export_occupancy_grid` for one obstacle: mark every cell
of the truncated-division index rectangle that falls inside the grid. -/
def markObstacle (res : Int) (width height : Nat) (grid : List (List Nat))
    (r : Int × Int × Int × Int) : List (List Nat) :=
  let xs := intRange (Int.tdiv r.1 res) (Int.tdiv r.2.2.1 res)
  let ys := intRange (Int.tdiv r.2.1 res) (Int.tdiv r.2.2.2 res)
  xs.foldl (fun grid gx =>
    ys.foldl (fun grid gy =>
      if 0 ≤ gy ∧ gy < (height : Int) ∧ 0 ≤ gx ∧ gx < (width : Int) then
        setCell grid gy.toNat gx.toNat
      else grid) grid) grid

/-- Embedding of `export_occupancy_grid`: a `height × width` grid of zeros,
then every obstacle marks its clipped cell rectangle with ones. -/
def exportOccupancyGrid (m : MapData) (res : Int) : List (List Nat) :=
  let width := (Int.tdiv (gridMaxX m) res).toNat + 1
  let height := (Int.tdiv (gridMaxY m) res).toNat + 1
  let grid := List.replicate height (List.replicate width 0)
  m.obstacles.foldl (markObstacle res width height) grid

/-- Cell read with the row-major `grid[y][x]` convention. -/
def getCell (grid : List (List Nat)) (y x : Nat) : Nat :=
  (grid.getD y []).getD x 0

/-- Does the truncated-division cell rectangle of obstacle `r` cover the
cell `(gx, gy)`?  This is the marking rule the code implements
(`int(v / res)` bounds, inclusive). -/
def coversCell (res : Int) (r : Int × Int × Int × Int) (gx gy : Int) : Bool :=
  decide (Int.tdiv r.1 res ≤ gx ∧ gx ≤ Int.tdiv r.2.2.1 res ∧
    Int.tdiv r.2.1 res ≤ gy ∧ gy ≤ Int.tdiv r.2.2.2 res)

/-- Marking rule the claim states: floor-division (`Int.fdiv`) bounds.  It
differs from `coversCell` on negative coordinates. -/
def claimCoversCell (res : Int) (r : Int × Int × Int × Int) (gx gy : Int) : Bool :=
  decide (Int.fdiv r.1 res ≤ gx ∧ gx ≤ Int.fdiv r.2.2.1 res ∧
    Int.fdiv r.2.1 res ≤ gy ∧ gy ≤ Int.fdiv r.2.2.2 res)

theorem mem_intRange (a b t : Int) : t ∈ intRange a b ↔ a ≤ t ∧ t ≤ b := by
  unfold intRange
  simp only [List.mem_map, List.mem_range]
  constructor
  · rintro ⟨i, hi, rfl⟩
    omega
  · rintro ⟨h1, h2⟩
    exact ⟨(t - a).toNat, by omega, by omega⟩

theorem length_setCell (g : List (List Nat)) (gy gx : Nat) :
    (setCell g gy gx).length = g.length := by
  induction g generalizing gy with
  | nil => rfl
  | cons row rest ih =>
    cases gy with
    | zero => simp [setCell]
    | succ gy => simp [setCell, ih]

/-- `Dims grid H W` keeps the shape invariant: `H` rows, each of length
`W`. -/
def Dims (grid : List (List Nat)) (H W : Nat) : Prop :=
  grid.length = H ∧ ∀ row ∈ grid, row.length = W

theorem rowlen_setCell (g : List (List Nat)) (gy gx : Nat) {W : Nat}
    (h : ∀ row ∈ g, row.length = W) :
    ∀ row ∈ setCell g gy gx, row.length = W := by
  induction g generalizing gy with
  | nil => intro row hrow; simp [setCell] at hrow
  | cons r rest ih =>
    cases gy with
    | zero =>
      intro row hrow
      rcases List.mem_cons.mp hrow with rfl | hrow
      · rw [List.length_set]
        exact h r (List.mem_cons_self r rest)
      · exact h row (List.mem_cons_of_mem r hrow)
    | succ gy =>
      intro row hrow
      rcases List.mem_cons.mp hrow with rfl | hrow
      · exact h row (List.mem_cons_self row rest)
      · exact ih gy (fun row hr => h row (List.mem_cons_of_mem r hr)) row hrow

theorem dims_setCell {grid : List (List Nat)} {H W : Nat} (h : Dims grid H W)
    (gy gx : Nat) : Dims (setCell grid gy gx) H W :=
  ⟨by rw [length_setCell, h.1], rowlen_setCell grid gy gx h.2⟩

theorem getCell_setCell (grid : List (List Nat)) (gy gx y x : Nat) :
    getCell (setCell grid gy gx) y x =
      if y = gy ∧ x = gx ∧ gy < grid.length ∧ gx < (grid.getD gy []).length then 1
      else getCell grid y x := by
  induction grid generalizing gy y with
  | nil =>
    simp [setCell, getCell]
  | cons row rest ih =>
    cases gy with
    | zero =>
      cases y with
      | zero =>
        simp only [setCell, getCell, List.getD_cons_zero, List.length_cons]
        have hget : (row.set gx 1).getD x 0 =
            if x = gx ∧ gx < row.length then 1 else row.getD x 0 := by
          rw [List.getD_eq_getElem?_getD, List.getD_eq_getElem?_getD, List.getElem?_set]
          by_cases hx : gx = x
          · subst hx
            by_cases hb : gx < row.length
            · simp [hb]
            · simp [hb, List.getElem?_eq_none (by omega : row.length ≤ gx)]
          · rw [if_neg hx, if_neg (fun hc => hx hc.1.symm)]
        rw [hget]
        by_cases hc : x = gx ∧ gx < row.length
        · rw [if_pos hc, if_pos ⟨True.intro, hc.1, by omega, hc.2⟩]
        · rw [if_neg hc, if_neg (fun hh => hc ⟨hh.2.1, hh.2.2.2⟩)]
      | succ y =>
        simp only [setCell, getCell, List.getD_cons_succ]
        rw [if_neg (fun hh => Nat.succ_ne_zero y hh.1)]
    | succ gy =>
      cases y with
      | zero =>
        simp only [setCell, getCell, List.getD_cons_zero]
        rw [if_neg (fun hh => Nat.succ_ne_zero gy hh.1.symm)]
      | succ y =>
        simp only [setCell, getCell, List.getD_cons_succ, List.length_cons]
        have hih := ih gy y
        simp only [getCell] at hih
        rw [hih]
        by_cases hc : y = gy ∧ x = gx ∧ gy < rest.length ∧ gx < (rest.getD gy []).length
        · rw [if_pos hc, if_pos ⟨by omega, hc.2.1, by omega, hc.2.2.2⟩]
        · rw [if_neg hc, if_neg (fun hh => hc ⟨by omega, hh.2.1, by omega, hh.2.2.2⟩)]

theorem getD_row_length {grid : List (List Nat)} {H W : Nat} (hd : Dims grid H W)
    {i : Nat} (hi : i < H) : (grid.getD i []).length = W := by
  have hl : i < grid.length := by rw [hd.1]; exact hi
  rw [List.getD_eq_getElem?_getD, List.getElem?_eq_getElem hl]
  exact hd.2 _ (List.getElem_mem hl)

theorem dims_innerFold (ys : List Int) (gx : Int) {H W : Nat}
    {grid : List (List Nat)} (hd : Dims grid H W) :
    Dims (ys.foldl (fun grid gy =>
      if 0 ≤ gy ∧ gy < (H : Int) ∧ 0 ≤ gx ∧ gx < (W : Int) then
        setCell grid gy.toNat gx.toNat else grid) grid) H W := by
  induction ys generalizing grid with
  | nil => exact hd
  | cons gy rest ih =>
    simp only [List.foldl_cons]
    apply ih
    split
    · exact dims_setCell hd _ _
    · exact hd

theorem getCell_innerFold (ys : List Int) (gx : Int) {H W : Nat}
    {grid : List (List Nat)} (hd : Dims grid H W) (y x : Nat)
    (hy : y < H) (hx : x < W) :
    getCell (ys.foldl (fun grid gy =>
        if 0 ≤ gy ∧ gy < (H : Int) ∧ 0 ≤ gx ∧ gx < (W : Int) then
          setCell grid gy.toNat gx.toNat else grid) grid) y x =
      if (y : Int) ∈ ys ∧ (x : Int) = gx then 1 else getCell grid y x := by
  induction ys generalizing grid with
  | nil => simp
  | cons gy rest ih =>
    simp only [List.foldl_cons]
    have hd' : Dims (if 0 ≤ gy ∧ gy < (H : Int) ∧ 0 ≤ gx ∧ gx < (W : Int) then
        setCell grid gy.toNat gx.toNat else grid) H W := by
      split
      · exact dims_setCell hd _ _
      · exact hd
    rw [ih hd']
    by_cases hm : (y : Int) ∈ rest ∧ (x : Int) = gx
    · rw [if_pos hm, if_pos ⟨List.mem_cons_of_mem gy hm.1, hm.2⟩]
    · rw [if_neg hm]
      by_cases hh : (y : Int) = gy ∧ (x : Int) = gx
      · have hg : 0 ≤ gy ∧ gy < (H : Int) ∧ 0 ≤ gx ∧ gx < (W : Int) := by
          obtain ⟨h1, h2⟩ := hh
          refine ⟨by omega, by omega, by omega, by omega⟩
        rw [if_pos hg, getCell_setCell]
        have hcond : y = gy.toNat ∧ x = gx.toNat ∧ gy.toNat < grid.length ∧
            gx.toNat < (grid.getD gy.toNat []).length := by
          obtain ⟨hg1, hg2, hg3, hg4⟩ := hg
          refine ⟨by omega, by omega, by rw [hd.1]; omega, ?_⟩
          rw [getD_row_length hd (by omega : gy.toNat < H)]
          omega
        rw [if_pos hcond, if_pos ⟨List.mem_cons.mpr (Or.inl hh.1), hh.2⟩]
      · have hstep : getCell (if 0 ≤ gy ∧ gy < (H : Int) ∧ 0 ≤ gx ∧ gx < (W : Int) then
            setCell grid gy.toNat gx.toNat else grid) y x = getCell grid y x := by
          split
          · rename_i hg
            rw [getCell_setCell]
            rw [if_neg ?hcne]
            case hcne =>
              intro hcond
              obtain ⟨hg1, hg2, hg3, hg4⟩ := hg
              exact hh ⟨by omega, by omega⟩
          · rfl
        rw [hstep, if_neg ?hne]
        case hne =>
          intro hcc
          rcases List.mem_cons.mp hcc.1 with h1 | h1
          · exact hh ⟨h1, hcc.2⟩
          · exact hm ⟨h1, hcc.2⟩

theorem dims_markObstacle (res : Int) {W H : Nat} {grid : List (List Nat)}
    (hd : Dims grid H W) (r : Int × Int × Int × Int) :
    Dims (markObstacle res W H grid r) H W := by
  show Dims ((intRange (Int.tdiv r.1 res) (Int.tdiv r.2.2.1 res)).foldl _ grid) H W
  generalize intRange (Int.tdiv r.1 res) (Int.tdiv r.2.2.1 res) = xs
  induction xs generalizing grid with
  | nil => exact hd
  | cons gx rest ih =>
    simp only [List.foldl_cons]
    exact ih (dims_innerFold _ gx hd)

theorem getCell_markObstacle (res : Int) {W H : Nat} {grid : List (List Nat)}
    (hd : Dims grid H W) (r : Int × Int × Int × Int) (y x : Nat)
    (hy : y < H) (hx : x < W) :
    getCell (markObstacle res W H grid r) y x =
      if coversCell res r (x : Int) (y : Int) then 1 else getCell grid y x := by
  have hmain : ∀ (xs : List Int) (grid : List (List Nat)), Dims grid H W →
      getCell (xs.foldl (fun grid gx =>
          (intRange (Int.tdiv r.2.1 res) (Int.tdiv r.2.2.2 res)).foldl
            (fun grid gy =>
              if 0 ≤ gy ∧ gy < (H : Int) ∧ 0 ≤ gx ∧ gx < (W : Int) then
                setCell grid gy.toNat gx.toNat else grid) grid) grid) y x =
        if (x : Int) ∈ xs ∧
            (y : Int) ∈ intRange (Int.tdiv r.2.1 res) (Int.tdiv r.2.2.2 res) then 1
        else getCell grid y x := by
    intro xs
    induction xs with
    | nil => simp
    | cons gx rest ih =>
      intro grid hd
      simp only [List.foldl_cons]
      rw [ih _ (dims_innerFold _ gx hd)]
      by_cases hm : (x : Int) ∈ rest ∧
          (y : Int) ∈ intRange (Int.tdiv r.2.1 res) (Int.tdiv r.2.2.2 res)
      · rw [if_pos hm, if_pos ⟨List.mem_cons_of_mem gx hm.1, hm.2⟩]
      · rw [if_neg hm, getCell_innerFold _ gx hd y x hy hx]
        by_cases hh : (y : Int) ∈ intRange (Int.tdiv r.2.1 res) (Int.tdiv r.2.2.2 res) ∧
            (x : Int) = gx
        · rw [if_pos hh, if_pos ⟨List.mem_cons.mpr (Or.inl hh.2), hh.1⟩]
        · rw [if_neg hh, if_neg ?hne2]
          case hne2 =>
            intro hcc
            rcases List.mem_cons.mp hcc.1 with h1 | h1
            · exact hh ⟨hcc.2, h1⟩
            · exact hm ⟨h1, hcc.2⟩
  have hunf : markObstacle res W H grid r =
      (intRange (Int.tdiv r.1 res) (Int.tdiv r.2.2.1 res)).foldl
        (fun grid gx =>
          (intRange (Int.tdiv r.2.1 res) (Int.tdiv r.2.2.2 res)).foldl
            (fun grid gy =>
              if 0 ≤ gy ∧ gy < (H : Int) ∧ 0 ≤ gx ∧ gx < (W : Int) then
                setCell grid gy.toNat gx.toNat else grid) grid) grid := rfl
  rw [hunf, hmain _ grid hd]
  have hiff : ((x : Int) ∈ intRange (Int.tdiv r.1 res) (Int.tdiv r.2.2.1 res) ∧
      (y : Int) ∈ intRange (Int.tdiv r.2.1 res) (Int.tdiv r.2.2.2 res)) ↔
      coversCell res r (x : Int) (y : Int) = true := by
    rw [mem_intRange, mem_intRange, coversCell, decide_eq_true_eq]
    tauto
  by_cases hcv : coversCell res r (x : Int) (y : Int) = true
  · rw [if_pos (hiff.mpr hcv), if_pos hcv]
  · rw [if_neg (fun hc => hcv (hiff.mp hc)), if_neg hcv]

theorem dims_obstacleFold (res : Int) {W H : Nat} (obs : List (Int × Int × Int × Int))
    {grid : List (List Nat)} (hd : Dims grid H W) :
    Dims (obs.foldl (markObstacle res W H) grid) H W := by
  induction obs generalizing grid with
  | nil => exact hd
  | cons r rest ih =>
    simp only [List.foldl_cons]
    exact ih (dims_markObstacle res hd r)

theorem getCell_obstacleFold (res : Int) {W H : Nat} (obs : List (Int × Int × Int × Int))
    {grid : List (List Nat)} (hd : Dims grid H W) (y x : Nat)
    (hy : y < H) (hx : x < W) :
    getCell (obs.foldl (markObstacle res W H) grid) y x =
      if obs.any (fun r => coversCell res r (x : Int) (y : Int)) then 1
      else getCell grid y x := by
  induction obs generalizing grid with
  | nil => simp
  | cons r rest ih =>
    simp only [List.foldl_cons, List.any_cons]
    rw [ih (dims_markObstacle res hd r)]
    by_cases hm : rest.any (fun r => coversCell res r (x : Int) (y : Int)) = true
    · rw [if_pos hm, if_pos (by rw [hm, Bool.or_true])]
    · have hm' : rest.any (fun r => coversCell res r (x : Int) (y : Int)) = false :=
        Bool.eq_false_iff.mpr hm
      rw [if_neg hm, getCell_markObstacle res hd r y x hy hx]
      by_cases hr : coversCell res r (x : Int) (y : Int) = true
      · rw [if_pos hr, if_pos (by rw [hr, Bool.true_or])]
      · rw [if_neg hr, if_neg (by rw [Bool.eq_false_iff.mpr hr, hm', Bool.or_self]; exact Bool.false_ne_true)]

theorem dims_replicate (H W : Nat) :
    Dims (List.replicate H (List.replicate W 0)) H W := by
  refine ⟨List.length_replicate H _, ?_⟩
  intro row hrow
  rw [List.eq_of_mem_replicate hrow]
  exact List.length_replicate W _

theorem getCell_replicate (H W y x : Nat) (hy : y < H) :
    getCell (List.replicate H (List.replicate W 0)) y x = 0 := by
  unfold getCell
  have h1 : (List.replicate H (List.replicate W 0)).getD y [] = List.replicate W 0 := by
    rw [List.getD_eq_getElem?_getD, List.getElem?_replicate, if_pos hy]
    rfl
  rw [h1, List.getD_eq_getElem?_getD, List.getElem?_replicate]
  by_cases hx : x < W
  · rw [if_pos hx]
    rfl
  · rw [if_neg hx]
    rfl

/-- C1 (counterexample): the claim computes the obstacle cell interval with
floor division, but `int(v / res)` in Python truncates toward zero, and the
two differ on negative coordinates.  For the map with a node at `(0,0)` and
the single obstacle `(-1, 0, -1, 0)` at resolution 40, the code marks cell
`(0,0)` (truncation gives `int(-1/40) = 0`), while no obstacle's
floor-division interval (here `[-1..-1] x [0..0]`) contains `(0,0)`, so the
claim says every cell is 0. -/
theorem claim_C1_counterexample :
    exportOccupancyGrid ⟨[], [((0 : Int), (0 : Int))], [(-1, 0, -1, 0)]⟩ 40 = [[1]] ∧
    (MapData.obstacles ⟨[], [((0 : Int), (0 : Int))], [(-1, 0, -1, 0)]⟩).any
      (fun r => claimCoversCell 40 r 0 0) = false := by
  constructor
  · decide
  · decide

/-- C1 (amended): for every map and positive resolution,
`export_occupancy_grid` returns a row-major `grid[y][x]` array with
`width = int(max_x / res) + 1` and `height = int(max_y / res) + 1`, where
`max_x`/`max_y` are the maxima of 0 and all x/y coordinates of lines, nodes
and obstacles; a cell is 1 exactly when some obstacle's cell rectangle
`[int(x1/res) .. int(x2/res)] x [int(y1/res) .. int(y2/res)]` — bounds
computed with truncation toward zero, which is flooring on non-negative
coordinates — contains it, the rest of each rectangle being clipped at the
grid bounds, and 0 otherwise. -/
theorem claim_C1_occupancy_grid_amended (m : MapData) (res : Int) (hres : 0 < res) :
    (exportOccupancyGrid m res).length = (Int.tdiv (gridMaxY m) res).toNat + 1 ∧
    (∀ row ∈ exportOccupancyGrid m res,
      row.length = (Int.tdiv (gridMaxX m) res).toNat + 1) ∧
    (∀ y x : Nat, y < (Int.tdiv (gridMaxY m) res).toNat + 1 →
      x < (Int.tdiv (gridMaxX m) res).toNat + 1 →
      getCell (exportOccupancyGrid m res) y x =
        if m.obstacles.any (fun r => coversCell res r (x : Int) (y : Int)) then 1
        else 0) := by
  have hunf : exportOccupancyGrid m res =
      m.obstacles.foldl
        (markObstacle res ((Int.tdiv (gridMaxX m) res).toNat + 1)
          ((Int.tdiv (gridMaxY m) res).toNat + 1))
        (List.replicate ((Int.tdiv (gridMaxY m) res).toNat + 1)
          (List.replicate ((Int.tdiv (gridMaxX m) res).toNat + 1) 0)) := rfl
  have hd0 := dims_replicate ((Int.tdiv (gridMaxY m) res).toNat + 1)
    ((Int.tdiv (gridMaxX m) res).toNat + 1)
  have hd := dims_obstacleFold res m.obstacles hd0
  refine ⟨?_, ?_, ?_⟩
  · rw [hunf]
    exact hd.1
  · intro row hrow
    rw [hunf] at hrow
    exact hd.2 row hrow
  · intro y x hy hx
    rw [hunf, getCell_obstacleFold res m.obstacles hd0 y x hy hx,
      getCell_replicate _ _ y x hy]

theorem claim_C1_occupancy_grid_amended_witness :
    (0 : Int) < 40 ∧
    ((exportOccupancyGrid ⟨[], [], [((0 : Int), (0 : Int), (80 : Int), (80 : Int))]⟩ 40).length =
        (Int.tdiv (gridMaxY ⟨[], [], [(0, 0, 80, 80)]⟩) 40).toNat + 1 ∧
      (∀ row ∈ exportOccupancyGrid ⟨[], [], [((0 : Int), (0 : Int), (80 : Int), (80 : Int))]⟩ 40,
        row.length = (Int.tdiv (gridMaxX ⟨[], [], [(0, 0, 80, 80)]⟩) 40).toNat + 1) ∧
      (∀ y x : Nat, y < (Int.tdiv (gridMaxY ⟨[], [], [(0, 0, 80, 80)]⟩) 40).toNat + 1 →
        x < (Int.tdiv (gridMaxX ⟨[], [], [(0, 0, 80, 80)]⟩) 40).toNat + 1 →
        getCell (exportOccupancyGrid ⟨[], [], [((0 : Int), (0 : Int), (80 : Int), (80 : Int))]⟩ 40) y x =
          if (MapData.obstacles ⟨[], [], [(0, 0, 80, 80)]⟩).any
              (fun r => coversCell 40 r (x : Int) (y : Int)) then 1
          else 0)) :=
  ⟨by decide, claim_C1_occupancy_grid_amended ⟨[], [], [(0, 0, 80, 80)]⟩ 40 (by decide)⟩

/-- C2 (counterexample): for the single obstacle `(0,0,80,80)` at
resolution 40 the code computes `x_end = y_end = int(80/40) = 2`, so the
inclusive cell rectangle `[0..2] x [0..2]` — the whole 3x3 grid — is marked
1.  The claim's cell `(2,0)` (read `grid[0][2]`) is 1, not 0, refuting
"exactly the cells (0,0),(1,0),(0,1),(1,1) are 1 and every other cell is
0". -/
theorem claim_C2_counterexample :
    getCell (exportOccupancyGrid ⟨[], [], [((0 : Int), (0 : Int), (80 : Int), (80 : Int))]⟩ 40) 0 2 = 1 ∧
    exportOccupancyGrid ⟨[], [], [((0 : Int), (0 : Int), (80 : Int), (80 : Int))]⟩ 40 ≠
      [[1, 1, 0], [1, 1, 0], [0, 0, 0]] := by
  constructor
  · decide
  · decide

/-- C2 (amended): the map whose only obstacle is `(0,0,80,80)` exported at
resolution 40 yields a 3x3 grid (`width = height = int(80/40)+1 = 3`) in
which every cell — the block `[0..2] x [0..2]`, which includes the four
cells `(0,0),(1,0),(0,1),(1,1)` the claim lists — is marked 1. -/
theorem claim_C2_occupancy_grid_amended :
    exportOccupancyGrid ⟨[], [], [((0 : Int), (0 : Int), (80 : Int), (80 : Int))]⟩ 40 =
      [[1, 1, 1], [1, 1, 1], [1, 1, 1]] := by
  decide

/-! ## k-shortest simple paths (`ten_builder.py`, `k_shortest_paths`)

The repository delegates path ranking to `networkx.shortest_simple_paths`
(external code, not in this repository).  `k_shortest_paths` itself only
takes the first `k` elements of that generator. -/

/-- Does the graph carry an edge between `u` and `v`? -/
def isEdgeOf (g : UGraph) (u v : Coord) : Bool :=
  g.edges.any (fun e => sameKey e.1 (u, v))

/-- Are all consecutive pairs of the coordinate list edges of the graph? -/
def chainOk (g : UGraph) : List Coord → Bool
  | a :: b :: rest => isEdgeOf g a b && chainOk g (b :: rest)
  | _ => true

/-- Is `p` a simple (loopless) path of `g` from `s` to `t`: nonempty, starts
at `s`, ends at `t`, visits pairwise distinct graph nodes, and steps only
along edges. -/
def isSimplePathB (g : UGraph) (s t : Coord) (p : List Coord) : Bool :=
  decide (p.head? = some s) && decide (p.getLast? = some t) && decide p.Nodup &&
    chainOk g p && p.all (fun c => decide (c ∈ g.nodes))

/-- Modelled from the spec: `networkx.shortest_simple_paths` enumerates the
distinct simple paths between two nodes (external library code, absent from
this repository).  Every simple path visits pairwise distinct nodes of the
graph, so enumerating the permutations of the sublists of the node list and
filtering captures exactly the simple paths, each once. -/
def allSimplePaths (g : UGraph) (s t : Coord) : List (List Coord) :=
  ((g.nodes.dedup.sublists.flatMap List.permutations').filter
    (fun p => isSimplePathB g s t p)).dedup

/-- Total edge weight of a path (sum over consecutive pairs). -/
def pathWeight (g : UGraph) (p : List Coord) : Int :=
  (p.zip p.tail).foldl (fun acc e => acc + (findEdgeW g e.1 e.2).getD 0) 0

/-- Embedding of `k_shortest_paths`: the simple paths in ascending
total-weight order (modelled from the spec, see `allSimplePaths`), cut to
the first `k` (`itertools.islice(generator, k)`). -/
def kShortestPaths (g : UGraph) (s t : Coord) (k : Nat) : List (List Coord) :=
  ((allSimplePaths g s t).insertionSort
    (fun p q => pathWeight g p ≤ pathWeight g q)).take k

theorem mem_allSimplePaths (g : UGraph) (s t : Coord) (p : List Coord) :
    p ∈ allSimplePaths g s t ↔ isSimplePathB g s t p = true := by
  unfold allSimplePaths
  rw [List.mem_dedup, List.mem_filter]
  constructor
  · rintro ⟨_, hp⟩
    exact hp
  · intro hp
    refine ⟨?_, hp⟩
    have hspec := hp
    unfold isSimplePathB at hspec
    simp only [Bool.and_eq_true, decide_eq_true_eq, List.all_eq_true] at hspec
    obtain ⟨⟨⟨⟨hhead, hlast⟩, hnd⟩, hchain⟩, hmem⟩ := hspec
    have hsub : p ⊆ g.nodes.dedup := by
      intro c hc
      rw [List.mem_dedup]
      exact hmem c hc
    obtain ⟨q, hq1, hq2⟩ := hnd.subperm hsub
    rw [List.mem_flatMap]
    exact ⟨q, List.mem_sublists.mpr hq2, List.mem_permutations'.mpr hq1.symm⟩

/-- C4: `k_shortest_paths` returns up to `k` distinct simple paths from
start to goal in ascending total-edge-weight order, and fewer than `k`
exactly when fewer simple paths exist (its length is the minimum of `k` and
the number of simple paths, `allSimplePaths` being a duplicate-free
enumeration of exactly the simple paths).  On the triangle graph with
exactly two simple paths between `(0,0)` and `(5,5)`, of weights 10 and 14,
requesting `k = 3` returns exactly those two paths, the weight-10 path
first. -/
theorem claim_C4_k_shortest_paths :
    (∀ (g : UGraph) (s t : Coord) (k : Nat),
      (∀ p ∈ kShortestPaths g s t k, isSimplePathB g s t p = true) ∧
      (kShortestPaths g s t k).Pairwise (fun p q => pathWeight g p ≤ pathWeight g q) ∧
      (kShortestPaths g s t k).Nodup ∧
      (kShortestPaths g s t k).length = min k (allSimplePaths g s t).length ∧
      (allSimplePaths g s t).Nodup ∧
      (∀ p, p ∈ allSimplePaths g s t ↔ isSimplePathB g s t p = true)) ∧
    (kShortestPaths
        (linesToGraph [(((0 : Int), (0 : Int)), ((5 : Int), (5 : Int))),
          (((0 : Int), (0 : Int)), ((7 : Int), (0 : Int))),
          (((7 : Int), (0 : Int)), ((5 : Int), (5 : Int)))]) (0, 0) (5, 5) 3 =
        [[(0, 0), (5, 5)], [(0, 0), (7, 0), (5, 5)]] ∧
      pathWeight
        (linesToGraph [(((0 : Int), (0 : Int)), ((5 : Int), (5 : Int))),
          (((0 : Int), (0 : Int)), ((7 : Int), (0 : Int))),
          (((7 : Int), (0 : Int)), ((5 : Int), (5 : Int)))]) [(0, 0), (5, 5)] = 10 ∧
      pathWeight
        (linesToGraph [(((0 : Int), (0 : Int)), ((5 : Int), (5 : Int))),
          (((0 : Int), (0 : Int)), ((7 : Int), (0 : Int))),
          (((7 : Int), (0 : Int)), ((5 : Int), (5 : Int)))]) [(0, 0), (7, 0), (5, 5)] = 14) := by
  constructor
  · intro g s t k
    letI rel : List Coord → List Coord → Prop := fun p q => pathWeight g p ≤ pathWeight g q
    haveI htot : IsTotal (List Coord) rel := ⟨fun p q => Int.le_total _ _⟩
    haveI htrans : IsTrans (List Coord) rel := ⟨fun p q r h1 h2 => le_trans h1 h2⟩
    have hperm := List.perm_insertionSort rel (allSimplePaths g s t)
    have hsorted := List.sorted_insertionSort rel (allSimplePaths g s t)
    have hsl := List.take_sublist k (List.insertionSort rel (allSimplePaths g s t))
    refine ⟨?_, ?_, ?_, ?_, List.nodup_dedup _, mem_allSimplePaths g s t⟩
    · intro p hp
      exact (mem_allSimplePaths g s t p).mp (hperm.mem_iff.mp (hsl.subset hp))
    · exact hsorted.sublist hsl
    · exact hsl.nodup (hperm.symm.nodup (List.nodup_dedup _))
    · rw [kShortestPaths, List.length_take, hperm.length_eq]
  · refine ⟨by decide, by decide, by decide⟩

/-! ## Time-expanded network builder (`ten_builder.py`, `build_ten`)

`networkx.DiGraph` is embedded like `UGraph`, but directed: the edge key is
the ordered source/target pair, and each edge carries `(capacity, weight)`.
`add_edge` overwrites the attributes of an existing directed edge. -/

/-- Time-expanded node `(Coordinate, time-step)`. -/
abbrev TNode := Coord × Nat

/-- Directed graph with capacity/weight edge attributes (embedding of
`networkx.DiGraph` restricted to the operations `build_ten` uses). -/
structure DiGraph where
  nodes : List TNode
  edges : List (TNode × TNode × Int × Int)
deriving DecidableEq

/-- Embedding of `DiGraph.add_node`. -/
def addDNode (g : DiGraph) (u : TNode) : DiGraph :=
  if u ∈ g.nodes then g else { g with nodes := g.nodes ++ [u] }

/-- Embedding of `DiGraph.add_edge(u, v, capacity=cap, weight=w)`: endpoints
become nodes; an existing directed edge `u -> v` has its attributes
replaced, otherwise the edge is appended. -/
def addDEdge (g : DiGraph) (u v : TNode) (cap w : Int) : DiGraph where
  nodes := (addDNode (addDNode g u) v).nodes
  edges :=
    if g.edges.any (fun e => decide (e.1 = u ∧ e.2.1 = v)) then
      g.edges.map (fun e => if e.1 = u ∧ e.2.1 = v then (u, v, cap, w) else e)
    else
      g.edges ++ [(u, v, cap, w)]

/-- Attribute lookup of the directed edge `a -> b`. -/
def findD (g : DiGraph) (a b : TNode) : Option (Int × Int) :=
  (g.edges.find? (fun e => decide (e.1 = a ∧ e.2.1 = b))).map (fun e => e.2.2)

/-- The `allowed_edges` set of `build_ten`: the union (as membership) of the
consecutive coordinate pairs of every candidate path of every agent. -/
def allowedEdges (ps : List (String × List (List Coord))) : List (Coord × Coord) :=
  ps.foldl (fun acc ap => ap.2.foldl (fun acc p => acc ++ p.zip p.tail) acc) []

/-- The `max_len` fold of `build_ten`: the maximum candidate-path
coordinate-count, seeded with 0. -/
def maxPathLen (ps : List (String × List (List Coord))) : Nat :=
  ps.foldl (fun m ap => ap.2.foldl (fun m p => max m p.length) m) 0

/-- One time layer, first inner loop of `build_ten`: for every base node a
wait edge `(c,t) -> (c,t+1)` with capacity 1 and weight 1 (with the
`add_node` call that precedes it in the source). -/
def waitFold (g : UGraph) (t : Nat) (ten : DiGraph) : DiGraph :=
  g.nodes.foldl (fun ten c => addDEdge (addDNode ten (c, t)) (c, t) (c, t + 1) 1 1) ten

/-- One time layer, second inner loop of `build_ten`: for every base edge
allowed in either direction, the two move edges with the base weight. -/
def moveFold (g : UGraph) (allowed : List (Coord × Coord)) (t : Nat)
    (ten : DiGraph) : DiGraph :=
  g.edges.foldl (fun ten e =>
    if e.1 ∈ allowed ∨ (e.1.2, e.1.1) ∈ allowed then
      addDEdge (addDEdge ten (e.1.1, t) (e.1.2, t + 1) 1 e.2)
        (e.1.2, t) (e.1.1, t + 1) 1 e.2
    else ten) ten

/-- The `for t in range(horizon)` loop of `build_ten`. -/
def tenCore (g : UGraph) (allowed : List (Coord × Coord)) (horizon : Nat) : DiGraph :=
  (List.range horizon).foldl (fun ten t => moveFold g allowed t (waitFold g t ten)) ⟨[], []⟩

/-- Embedding of `build_ten`: the layered core followed by the terminal
`add_node((node, horizon))` loop; returns the network and the horizon. -/
def buildTen (g : UGraph) (ps : List (String × List (List Coord))) : DiGraph × Nat :=
  let horizon := maxPathLen ps
  (g.nodes.foldl (fun ten c => addDNode ten (c, horizon))
    (tenCore g (allowedEdges ps) horizon), horizon)

theorem edges_addDNode (g : DiGraph) (u : TNode) : (addDNode g u).edges = g.edges := by
  unfold addDNode
  split <;> rfl

theorem mem_addDNode (g : DiGraph) (u x : TNode) :
    x ∈ (addDNode g u).nodes ↔ x ∈ g.nodes ∨ x = u := by
  unfold addDNode
  by_cases h : u ∈ g.nodes
  · rw [if_pos h]
    constructor
    · exact Or.inl
    · rintro (hc | rfl) <;> [exact hc; exact h]
  · rw [if_neg h]
    simp [List.mem_append]

theorem mem_addDEdge (g : DiGraph) (u v x : TNode) (cap w : Int) :
    x ∈ (addDEdge g u v cap w).nodes ↔ x ∈ g.nodes ∨ x = u ∨ x = v := by
  show x ∈ (addDNode (addDNode g u) v).nodes ↔ _
  rw [mem_addDNode, mem_addDNode]
  tauto

theorem dfind_replace_pos (edges : List (TNode × TNode × Int × Int))
    (u v a b : TNode) (cap w : Int) (hk : a = u ∧ b = v)
    (hmem : edges.any (fun e => decide (e.1 = u ∧ e.2.1 = v)) = true) :
    ((edges.map (fun e => if e.1 = u ∧ e.2.1 = v then (u, v, cap, w) else e)).find?
        (fun e => decide (e.1 = a ∧ e.2.1 = b))).map (fun e => e.2.2) = some (cap, w) := by
  obtain ⟨rfl, rfl⟩ := hk
  induction edges with
  | nil => simp at hmem
  | cons e rest ih =>
    rw [List.map_cons]
    by_cases he : e.1 = a ∧ e.2.1 = b
    · rw [if_pos he, @List.find?_cons_of_pos _ (fun e => decide (e.1 = a ∧ e.2.1 = b))
        (a, b, cap, w) _ (decide_eq_true ⟨rfl, rfl⟩)]
      rfl
    · rw [if_neg he, @List.find?_cons_of_neg _ (fun e => decide (e.1 = a ∧ e.2.1 = b))
        e _ (fun hcc => he (of_decide_eq_true hcc))]
      refine ih ?_
      rw [List.any_cons, decide_eq_false he, Bool.false_or] at hmem
      exact hmem

theorem dfind_replace_ne (edges : List (TNode × TNode × Int × Int))
    (u v a b : TNode) (cap w : Int) (hk : ¬ (a = u ∧ b = v)) :
    ((edges.map (fun e => if e.1 = u ∧ e.2.1 = v then (u, v, cap, w) else e)).find?
        (fun e => decide (e.1 = a ∧ e.2.1 = b))).map (fun e => e.2.2) =
      (edges.find? (fun e => decide (e.1 = a ∧ e.2.1 = b))).map (fun e => e.2.2) := by
  induction edges with
  | nil => rfl
  | cons e rest ih =>
    rw [List.map_cons]
    by_cases he : e.1 = u ∧ e.2.1 = v
    · have ht : ¬ ((u, v, cap, w).1 = a ∧ (u, v, cap, w).2.1 = b) := by
        intro hc
        exact hk ⟨hc.1.symm, hc.2.symm⟩
      have ht2 : ¬ (e.1 = a ∧ e.2.1 = b) := by
        intro hc
        exact hk ⟨hc.1.symm.trans he.1, hc.2.symm.trans he.2⟩
      rw [if_pos he,
        @List.find?_cons_of_neg _ (fun e => decide (e.1 = a ∧ e.2.1 = b)) (u, v, cap, w) _
          (fun hcc => ht (of_decide_eq_true hcc)),
        @List.find?_cons_of_neg _ (fun e => decide (e.1 = a ∧ e.2.1 = b)) e _
          (fun hcc => ht2 (of_decide_eq_true hcc)), ih]
    · by_cases ht : e.1 = a ∧ e.2.1 = b
      · rw [if_neg he,
          @List.find?_cons_of_pos _ (fun e => decide (e.1 = a ∧ e.2.1 = b)) e _
            (decide_eq_true ht),
          @List.find?_cons_of_pos _ (fun e => decide (e.1 = a ∧ e.2.1 = b)) e _
            (decide_eq_true ht)]
      · rw [if_neg he,
          @List.find?_cons_of_neg _ (fun e => decide (e.1 = a ∧ e.2.1 = b)) e _
            (fun hcc => ht (of_decide_eq_true hcc)),
          @List.find?_cons_of_neg _ (fun e => decide (e.1 = a ∧ e.2.1 = b)) e _
            (fun hcc => ht (of_decide_eq_true hcc)), ih]

theorem findD_addDEdge (g : DiGraph) (u v a b : TNode) (cap w : Int) :
    findD (addDEdge g u v cap w) a b =
      if a = u ∧ b = v then some (cap, w) else findD g a b := by
  show ((if g.edges.any (fun e => decide (e.1 = u ∧ e.2.1 = v)) then
      g.edges.map (fun e => if e.1 = u ∧ e.2.1 = v then (u, v, cap, w) else e)
    else g.edges ++ [(u, v, cap, w)]).find?
      (fun e => decide (e.1 = a ∧ e.2.1 = b))).map (fun e => e.2.2) = _
  by_cases hmem : g.edges.any (fun e => decide (e.1 = u ∧ e.2.1 = v)) = true
  · rw [if_pos hmem]
    by_cases hk : a = u ∧ b = v
    · rw [if_pos hk]
      exact dfind_replace_pos g.edges u v a b cap w hk hmem
    · rw [if_neg hk]
      exact dfind_replace_ne g.edges u v a b cap w hk
  · rw [if_neg hmem, List.find?_append]
    by_cases hk : a = u ∧ b = v
    · obtain ⟨rfl, rfl⟩ := hk
      have hnone : g.edges.find? (fun e => decide (e.1 = a ∧ e.2.1 = b)) = none := by
        rw [List.find?_eq_none]
        intro x hx hpx
        exact hmem (List.any_eq_true.mpr ⟨x, hx, hpx⟩)
      rw [hnone]
      simp [List.find?_cons]
    · have hlast : List.find? (fun e => decide (e.1 = a ∧ e.2.1 = b)) [(u, v, cap, w)] = none := by
        simp only [List.find?_cons, List.find?_nil]
        have : ¬ ((u, v, cap, w).1 = a ∧ (u, v, cap, w).2.1 = b) := by
          intro hc
          exact hk ⟨hc.1.symm, hc.2.symm⟩
        simp [this]
      rw [hlast, Option.or_none, if_neg hk]
      rfl

/-- Lookup after one wait layer: the wait edges `(c,t) -> (c,t+1)` of the
processed nodes all carry `(1, 1)`; other keys are untouched. -/
theorem findD_waitFoldAux (ns : List Coord) (t : Nat) (ten : DiGraph) (a b : TNode) :
    findD (ns.foldl (fun ten c =>
        addDEdge (addDNode ten (c, t)) (c, t) (c, t + 1) 1 1) ten) a b =
      if a.2 = t ∧ b = (a.1, t + 1) ∧ a.1 ∈ ns then some (1, 1) else findD ten a b := by
  induction ns generalizing ten with
  | nil =>
    rw [if_neg (fun hc => List.not_mem_nil _ hc.2.2)]
    rfl
  | cons n ns ih =>
    simp only [List.foldl_cons]
    rw [ih]
    by_cases hm : a.2 = t ∧ b = (a.1, t + 1) ∧ a.1 ∈ ns
    · rw [if_pos hm, if_pos ⟨hm.1, hm.2.1, List.mem_cons_of_mem n hm.2.2⟩]
    · rw [if_neg hm]
      have hstep : findD (addDEdge (addDNode ten (n, t)) (n, t) (n, t + 1) 1 1) a b =
          if a = ((n, t) : TNode) ∧ b = (n, t + 1) then some (1, 1) else findD ten a b := by
        rw [findD_addDEdge]
        by_cases hk : a = ((n, t) : TNode) ∧ b = (n, t + 1)
        · rw [if_pos hk, if_pos hk]
        · rw [if_neg hk, if_neg hk]
          unfold findD
          rw [edges_addDNode]
      rw [hstep]
      by_cases hk : a = ((n, t) : TNode) ∧ b = (n, t + 1)
      · have hc2 : a.2 = t ∧ b = (a.1, t + 1) ∧ a.1 ∈ n :: ns := by
          obtain ⟨h1, h2⟩ := hk
          subst h1
          subst h2
          exact ⟨rfl, rfl, List.mem_cons_self _ _⟩
        rw [if_pos hk, if_pos hc2]
      · rw [if_neg hk, if_neg ?hx]
        case hx =>
          rintro ⟨h1, h2, h3⟩
          rcases List.mem_cons.mp h3 with h4 | h4
          · apply hk
            refine ⟨?_, by rw [h2, h4]⟩
            calc a = (a.1, a.2) := rfl
              _ = (n, t) := by rw [h4, h1]
          · exact hm ⟨h1, h2, h4⟩

/-- Does base edge `e` provide the move edge `a -> b` at layer `t` (in one
of its two directions, subject to the allowed-edge restriction)? -/
def movePred (allowed : List (Coord × Coord)) (t : Nat) (a b : TNode)
    (e : (Coord × Coord) × Int) : Bool :=
  decide ((e.1 ∈ allowed ∨ (e.1.2, e.1.1) ∈ allowed) ∧
    (a = ((e.1.1, t) : TNode) ∧ b = (e.1.2, t + 1) ∨
     a = ((e.1.2, t) : TNode) ∧ b = (e.1.1, t + 1)))

theorem sameKey_of_movePred {allowed : List (Coord × Coord)} {t : Nat} {a b : TNode}
    {e1 e2 : (Coord × Coord) × Int} (h1 : movePred allowed t a b e1 = true)
    (h2 : movePred allowed t a b e2 = true) : sameKey e1.1 e2.1 = true := by
  unfold movePred at h1 h2
  rw [decide_eq_true_eq] at h1 h2
  rw [sameKey_iff]
  obtain ⟨-, hd1⟩ := h1
  obtain ⟨-, hd2⟩ := h2
  rcases hd1 with ⟨ha1, hb1⟩ | ⟨ha1, hb1⟩ <;> rcases hd2 with ⟨ha2, hb2⟩ | ⟨ha2, hb2⟩
  · exact Or.inl (Prod.ext
      ((congrArg Prod.fst ha1).symm.trans (congrArg Prod.fst ha2))
      ((congrArg Prod.fst hb1).symm.trans (congrArg Prod.fst hb2)))
  · exact Or.inr (Prod.ext
      ((congrArg Prod.fst ha1).symm.trans (congrArg Prod.fst ha2))
      ((congrArg Prod.fst hb1).symm.trans (congrArg Prod.fst hb2)))
  · exact Or.inr (Prod.ext
      ((congrArg Prod.fst hb1).symm.trans (congrArg Prod.fst hb2))
      ((congrArg Prod.fst ha1).symm.trans (congrArg Prod.fst ha2)))
  · exact Or.inl (Prod.ext
      ((congrArg Prod.fst hb1).symm.trans (congrArg Prod.fst hb2))
      ((congrArg Prod.fst ha1).symm.trans (congrArg Prod.fst ha2)))

/-- Lookup after one move layer over an edge list whose unordered keys are
pairwise distinct: the first (hence only) matching allowed base edge
provides `(1, its weight)`; other keys are untouched. -/
theorem findD_moveFoldAux (es : List ((Coord × Coord) × Int))
    (allowed : List (Coord × Coord)) (t : Nat) (ten : DiGraph) (a b : TNode)
    (hpw : es.Pairwise (fun e1 e2 => sameKey e1.1 e2.1 = false)) :
    findD (es.foldl (fun ten e =>
        if e.1 ∈ allowed ∨ (e.1.2, e.1.1) ∈ allowed then
          addDEdge (addDEdge ten (e.1.1, t) (e.1.2, t + 1) 1 e.2)
            (e.1.2, t) (e.1.1, t + 1) 1 e.2
        else ten) ten) a b =
      ((es.find? (movePred allowed t a b)).map (fun e => ((1 : Int), e.2))).or
        (findD ten a b) := by
  induction es generalizing ten with
  | nil => rfl
  | cons e rest ih =>
    rw [List.pairwise_cons] at hpw
    simp only [List.foldl_cons]
    rw [ih _ hpw.2]
    by_cases hal : e.1 ∈ allowed ∨ (e.1.2, e.1.1) ∈ allowed
    · rw [if_pos hal]
      by_cases hp : movePred allowed t a b e = true
      · rw [@List.find?_cons_of_pos _ (movePred allowed t a b) e _ hp]
        have hrest : rest.find? (movePred allowed t a b) = none := by
          rw [List.find?_eq_none]
          intro x hx hpx
          exact Bool.noConfusion
            ((sameKey_of_movePred hp hpx).symm.trans (hpw.1 x hx))
        rw [hrest]
        show findD (addDEdge (addDEdge ten (e.1.1, t) (e.1.2, t + 1) 1 e.2)
          (e.1.2, t) (e.1.1, t + 1) 1 e.2) a b = some (1, e.2)
        have hd := of_decide_eq_true hp
        rcases hd.2 with ⟨ha, hb⟩ | ⟨ha, hb⟩
        · rw [findD_addDEdge]
          by_cases houter : a = ((e.1.2, t) : TNode) ∧ b = (e.1.1, t + 1)
          · rw [if_pos houter]
          · rw [if_neg houter, findD_addDEdge, if_pos ⟨ha, hb⟩]
        · rw [findD_addDEdge, if_pos ⟨ha, hb⟩]
      · rw [@List.find?_cons_of_neg _ (movePred allowed t a b) e _ hp]
        have hk1 : ¬ (a = ((e.1.1, t) : TNode) ∧ b = (e.1.2, t + 1)) :=
          fun hc => hp (decide_eq_true ⟨hal, Or.inl hc⟩)
        have hk2 : ¬ (a = ((e.1.2, t) : TNode) ∧ b = (e.1.1, t + 1)) :=
          fun hc => hp (decide_eq_true ⟨hal, Or.inr hc⟩)
        rw [findD_addDEdge, if_neg hk2, findD_addDEdge, if_neg hk1]
    · rw [if_neg hal,
        @List.find?_cons_of_neg _ (movePred allowed t a b) e _
          (fun hcc => hal (of_decide_eq_true hcc).1)]

/-- The wait-edge contribution of layer `t` to lookups. -/
def waitSpec (g : UGraph) (t : Nat) (a b : TNode) : Option (Int × Int) :=
  if a.2 = t ∧ b = (a.1, t + 1) ∧ a.1 ∈ g.nodes then some (1, 1) else none

/-- The move-edge contribution of layer `t` to lookups. -/
def moveSpec (g : UGraph) (allowed : List (Coord × Coord)) (t : Nat) (a b : TNode) :
    Option (Int × Int) :=
  (g.edges.find? (movePred allowed t a b)).map (fun e => ((1 : Int), e.2))

theorem movePred_find_eq_none {allowed : List (Coord × Coord)} {t : Nat}
    {a b : TNode} (h : a.2 ≠ t) (es : List ((Coord × Coord) × Int)) :
    es.find? (movePred allowed t a b) = none := by
  rw [List.find?_eq_none]
  intro x _ hpx
  have hd := of_decide_eq_true hpx
  rcases hd.2 with ⟨ha, -⟩ | ⟨ha, -⟩ <;> exact h (congrArg Prod.snd ha)

/-- Full characterization of lookups in the layered core: an edge exists
only from a node at a time `< n`, and the binding is the move contribution
of that layer overriding the wait contribution. -/
theorem findD_tenCore (g : UGraph) (allowed : List (Coord × Coord))
    (hpw : g.edges.Pairwise (fun e1 e2 => sameKey e1.1 e2.1 = false))
    (n : Nat) (a b : TNode) :
    findD (tenCore g allowed n) a b =
      if a.2 < n then (moveSpec g allowed a.2 a b).or (waitSpec g a.2 a b)
      else none := by
  induction n with
  | zero =>
    rw [if_neg (by omega)]
    rfl
  | succ n ih =>
    show findD ((List.range (n + 1)).foldl
      (fun ten t => moveFold g allowed t (waitFold g t ten)) ⟨[], []⟩) a b = _
    rw [List.range_succ, List.foldl_append]
    show findD (moveFold g allowed n (waitFold g n (tenCore g allowed n))) a b = _
    unfold moveFold waitFold
    rw [findD_moveFoldAux _ _ _ _ _ _ hpw, findD_waitFoldAux, ih]
    rcases Nat.lt_trichotomy a.2 n with hlt | heq | hgt
    · rw [movePred_find_eq_none (by omega), if_neg (fun hc => absurd hc.1 (by omega)),
        if_pos hlt, if_pos (by omega)]
      rfl
    · subst heq
      rw [if_neg (lt_irrefl a.2), if_pos (Nat.lt_succ_self a.2)]
      rfl
    · rw [movePred_find_eq_none (by omega), if_neg (fun hc => absurd hc.1 (by omega)),
        if_neg (by omega), if_neg (by omega)]
      rfl

theorem findD_terminalFold (ns : List Coord) (H : Nat) (ten : DiGraph) (a b : TNode) :
    findD (ns.foldl (fun ten c => addDNode ten (c, H)) ten) a b = findD ten a b := by
  induction ns generalizing ten with
  | nil => rfl
  | cons c rest ih =>
    simp only [List.foldl_cons]
    rw [ih]
    unfold findD
    rw [edges_addDNode]

theorem mem_nodes_waitFold (ns : List Coord) (t : Nat) (ten : DiGraph) (x : TNode) :
    x ∈ (ns.foldl (fun ten c =>
        addDEdge (addDNode ten (c, t)) (c, t) (c, t + 1) 1 1) ten).nodes ↔
      x ∈ ten.nodes ∨ ∃ c ∈ ns, x = (c, t) ∨ x = (c, t + 1) := by
  induction ns generalizing ten with
  | nil => simp
  | cons c rest ih =>
    simp only [List.foldl_cons]
    rw [ih, mem_addDEdge, mem_addDNode]
    constructor
    · rintro (((h | h) | h | h) | ⟨d, hd, hc⟩)
      · exact Or.inl h
      · exact Or.inr ⟨c, List.mem_cons_self _ _, Or.inl h⟩
      · exact Or.inr ⟨c, List.mem_cons_self _ _, Or.inl h⟩
      · exact Or.inr ⟨c, List.mem_cons_self _ _, Or.inr h⟩
      · exact Or.inr ⟨d, List.mem_cons_of_mem c hd, hc⟩
    · rintro (h | ⟨d, hd, hc⟩)
      · exact Or.inl (Or.inl (Or.inl h))
      · rcases List.mem_cons.mp hd with rfl | hd2
        · rcases hc with rfl | rfl
          · exact Or.inl (Or.inl (Or.inr rfl))
          · exact Or.inl (Or.inr (Or.inr rfl))
        · exact Or.inr ⟨d, hd2, hc⟩

theorem mem_nodes_moveFold_of (es : List ((Coord × Coord) × Int))
    (allowed : List (Coord × Coord)) (t : Nat) (ten : DiGraph) (x : TNode)
    (h : x ∈ ten.nodes) :
    x ∈ (es.foldl (fun ten e =>
      if e.1 ∈ allowed ∨ (e.1.2, e.1.1) ∈ allowed then
        addDEdge (addDEdge ten (e.1.1, t) (e.1.2, t + 1) 1 e.2)
          (e.1.2, t) (e.1.1, t + 1) 1 e.2
      else ten) ten).nodes := by
  induction es generalizing ten with
  | nil => exact h
  | cons e rest ih =>
    simp only [List.foldl_cons]
    apply ih
    split
    · rw [mem_addDEdge, mem_addDEdge]
      exact Or.inl (Or.inl h)
    · exact h

theorem mem_nodes_terminalFold (ns : List Coord) (H : Nat) (ten : DiGraph) (x : TNode) :
    x ∈ (ns.foldl (fun ten c => addDNode ten (c, H)) ten).nodes ↔
      x ∈ ten.nodes ∨ ∃ c ∈ ns, x = (c, H) := by
  induction ns generalizing ten with
  | nil => simp
  | cons c rest ih =>
    simp only [List.foldl_cons]
    rw [ih, mem_addDNode]
    constructor
    · rintro ((h | h) | ⟨d, hd, hc⟩)
      · exact Or.inl h
      · exact Or.inr ⟨c, List.mem_cons_self _ _, h⟩
      · exact Or.inr ⟨d, List.mem_cons_of_mem c hd, hc⟩
    · rintro (h | ⟨d, hd, hc⟩)
      · exact Or.inl (Or.inl h)
      · rcases List.mem_cons.mp hd with rfl | hd2
        · exact Or.inl (Or.inr hc)
        · exact Or.inr ⟨d, hd2, hc⟩

theorem mem_nodes_tenCore_of (g : UGraph) (allowed : List (Coord × Coord))
    (n : Nat) (c : Coord) (t' : Nat) (hc : c ∈ g.nodes) (ht : t' ≤ n) (hn : 0 < n) :
    ((c, t') : TNode) ∈ (tenCore g allowed n).nodes := by
  induction n with
  | zero => omega
  | succ n ih =>
    show ((c, t') : TNode) ∈ ((List.range (n + 1)).foldl
      (fun ten t => moveFold g allowed t (waitFold g t ten)) ⟨[], []⟩).nodes
    rw [List.range_succ, List.foldl_append]
    show ((c, t') : TNode) ∈
      (moveFold g allowed n (waitFold g n (tenCore g allowed n))).nodes
    unfold moveFold waitFold
    apply mem_nodes_moveFold_of
    rw [mem_nodes_waitFold]
    by_cases hlt : t' ≤ n ∧ 0 < n
    · exact Or.inl (ih hlt.1 hlt.2)
    · right
      refine ⟨c, hc, ?_⟩
      rcases Nat.lt_or_ge t' (n + 1) with h1 | h1
      · left
        have : t' = n := by omega
        rw [this]
      · right
        have : t' = n + 1 := by omega
        rw [this]

theorem foldl_max_len_spec (paths : List (List Coord)) (acc : Nat) :
    acc ≤ paths.foldl (fun m p => max m p.length) acc ∧
    (∀ p ∈ paths, p.length ≤ paths.foldl (fun m p => max m p.length) acc) ∧
    (paths.foldl (fun m p => max m p.length) acc = acc ∨
      ∃ p ∈ paths, paths.foldl (fun m p => max m p.length) acc = p.length) := by
  induction paths generalizing acc with
  | nil => exact ⟨le_refl _, by simp, Or.inl rfl⟩
  | cons p rest ih =>
    simp only [List.foldl_cons]
    obtain ⟨h1, h2, h3⟩ := ih (max acc p.length)
    refine ⟨le_trans (Nat.le_max_left _ _) h1, ?_, ?_⟩
    · intro q hq
      rcases List.mem_cons.mp hq with rfl | hq2
      · exact le_trans (Nat.le_max_right _ _) h1
      · exact h2 q hq2
    · rcases h3 with h3 | ⟨q, hq, h4⟩
      · rcases Nat.le_total acc p.length with hcmp | hcmp
        · exact Or.inr ⟨p, List.mem_cons_self _ _, by rw [h3, Nat.max_eq_right hcmp]⟩
        · exact Or.inl (by rw [h3, Nat.max_eq_left hcmp])
      · exact Or.inr ⟨q, List.mem_cons_of_mem p hq, h4⟩

theorem maxPathLen_spec (ps : List (String × List (List Coord))) (acc : Nat) :
    acc ≤ ps.foldl (fun m ap => ap.2.foldl (fun m p => max m p.length) m) acc ∧
    (∀ ap ∈ ps, ∀ p ∈ ap.2,
      p.length ≤ ps.foldl (fun m ap => ap.2.foldl (fun m p => max m p.length) m) acc) ∧
    (ps.foldl (fun m ap => ap.2.foldl (fun m p => max m p.length) m) acc = acc ∨
      ∃ ap ∈ ps, ∃ p ∈ ap.2,
        ps.foldl (fun m ap => ap.2.foldl (fun m p => max m p.length) m) acc = p.length) := by
  induction ps generalizing acc with
  | nil => exact ⟨le_refl _, by simp, Or.inl rfl⟩
  | cons ap rest ih =>
    simp only [List.foldl_cons]
    obtain ⟨hi1, hi2, hi3⟩ := foldl_max_len_spec ap.2 acc
    obtain ⟨h1, h2, h3⟩ := ih (ap.2.foldl (fun m p => max m p.length) acc)
    refine ⟨le_trans hi1 h1, ?_, ?_⟩
    · intro bp hbp p hp
      rcases List.mem_cons.mp hbp with rfl | hbp2
      · exact le_trans (hi2 p hp) h1
      · exact h2 bp hbp2 p hp
    · rcases h3 with h3 | ⟨bp, hbp, p, hp, h4⟩
      · rcases hi3 with hi3 | ⟨p, hp, hi4⟩
        · exact Or.inl (by rw [h3, hi3])
        · exact Or.inr ⟨ap, List.mem_cons_self _ _, p, hp, by rw [h3, hi4]⟩
      · exact Or.inr ⟨bp, List.mem_cons_of_mem ap hbp, p, hp, h4⟩

theorem find?_movePred_first (allowed : List (Coord × Coord)) (t : Nat) (a b : TNode)
    (es : List ((Coord × Coord) × Int)) (e : (Coord × Coord) × Int)
    (hp : movePred allowed t a b e = true) :
    es.Pairwise (fun e1 e2 => sameKey e1.1 e2.1 = false) → e ∈ es →
      es.find? (movePred allowed t a b) = some e := by
  induction es with
  | nil =>
    intro _ he
    simp at he
  | cons e0 rest ih =>
    intro hpw he
    rw [List.pairwise_cons] at hpw
    rcases List.mem_cons.mp he with rfl | he2
    · exact List.find?_cons_of_pos _ hp
    · have hp0 : ¬ movePred allowed t a b e0 = true := fun hc =>
        Bool.noConfusion ((sameKey_of_movePred hc hp).symm.trans (hpw.1 e he2))
      rw [List.find?_cons_of_neg _ hp0]
      exact ih hpw.2 he2

/-- The property C5 asserts of `build_ten` (amended to self-loop-free base
graphs): the horizon is the coordinate-count of the longest candidate path;
every base node gets a capacity-1/weight-1 wait edge at each layer; every
base edge allowed in either direction gets its two capacity-1 move edges
with the base weight at each layer; there are no other edges; time-expanded
nodes exist through the horizon, and the terminal-layer nodes exist and have
no outgoing edges. -/
def BuildTenSpec (g : UGraph) (ps : List (String × List (List Coord))) : Prop :=
  ((∀ ap ∈ ps, ∀ p ∈ ap.2, p.length ≤ (buildTen g ps).2) ∧
    ((buildTen g ps).2 = 0 ∨ ∃ ap ∈ ps, ∃ p ∈ ap.2, (buildTen g ps).2 = p.length)) ∧
  (∀ c ∈ g.nodes, ∀ t, t < (buildTen g ps).2 →
    findD (buildTen g ps).1 (c, t) (c, t + 1) = some (1, 1)) ∧
  (∀ e ∈ g.edges, (e.1 ∈ allowedEdges ps ∨ (e.1.2, e.1.1) ∈ allowedEdges ps) →
    ∀ t, t < (buildTen g ps).2 →
      findD (buildTen g ps).1 (e.1.1, t) (e.1.2, t + 1) = some (1, e.2) ∧
      findD (buildTen g ps).1 (e.1.2, t) (e.1.1, t + 1) = some (1, e.2)) ∧
  (∀ (a b : TNode) (cw : Int × Int), findD (buildTen g ps).1 a b = some cw →
    b.2 = a.2 + 1 ∧ a.2 < (buildTen g ps).2 ∧
      ((b = (a.1, a.2 + 1) ∧ a.1 ∈ g.nodes ∧ cw = (1, 1)) ∨
        ∃ e ∈ g.edges,
          (e.1 ∈ allowedEdges ps ∨ (e.1.2, e.1.1) ∈ allowedEdges ps) ∧
          cw = (1, e.2) ∧
          ((a.1 = e.1.1 ∧ b.1 = e.1.2) ∨ (a.1 = e.1.2 ∧ b.1 = e.1.1)))) ∧
  (∀ c ∈ g.nodes, ∀ t, t ≤ (buildTen g ps).2 →
    ((c, t) : TNode) ∈ (buildTen g ps).1.nodes) ∧
  (∀ c ∈ g.nodes, ((c, (buildTen g ps).2) : TNode) ∈ (buildTen g ps).1.nodes ∧
    ∀ (b : TNode) (cw : Int × Int),
      ¬ findD (buildTen g ps).1 ((c, (buildTen g ps).2) : TNode) b = some cw)

theorem findD_buildTen (g : UGraph) (ps : List (String × List (List Coord)))
    (hpw : g.edges.Pairwise (fun e1 e2 => sameKey e1.1 e2.1 = false))
    (a b : TNode) :
    findD (buildTen g ps).1 a b =
      if a.2 < maxPathLen ps then
        (moveSpec g (allowedEdges ps) a.2 a b).or (waitSpec g a.2 a b)
      else none := by
  show findD (g.nodes.foldl (fun ten c => addDNode ten (c, maxPathLen ps))
    (tenCore g (allowedEdges ps) (maxPathLen ps))) a b = _
  rw [findD_terminalFold, findD_tenCore g (allowedEdges ps) hpw]

/-- C5 (amended): the claim's description of `build_ten`, restricted to base
graphs without self-loop edges (and with the `networkx` graph representation
invariant that distinct stored edges have distinct unordered endpoint
pairs). -/
theorem claim_C5_build_ten_amended (g : UGraph) (ps : List (String × List (List Coord)))
    (hsl : ∀ e ∈ g.edges, e.1.1 ≠ e.1.2)
    (hpw : g.edges.Pairwise (fun e1 e2 => sameKey e1.1 e2.1 = false)) :
    BuildTenSpec g ps := by
  have hH : (buildTen g ps).2 = maxPathLen ps := rfl
  refine ⟨⟨?_, ?_⟩, ?_, ?_, ?_, ?_, ?_⟩
  · intro ap hap p hp
    rw [hH]
    exact (maxPathLen_spec ps 0).2.1 ap hap p hp
  · rw [hH]
    exact (maxPathLen_spec ps 0).2.2
  · intro c hc t ht
    have ht' : ((c, t) : TNode).2 < maxPathLen ps := ht
    rw [findD_buildTen g ps hpw, if_pos ht']
    have hmv : g.edges.find? (movePred (allowedEdges ps) ((c, t) : TNode).2
        ((c, t) : TNode) ((c, t + 1) : TNode)) = none := by
      rw [List.find?_eq_none]
      intro x hx hpx
      have hd := of_decide_eq_true hpx
      rcases hd.2 with ⟨ha, hb⟩ | ⟨ha, hb⟩
      · exact hsl x hx ((congrArg Prod.fst ha).symm.trans (congrArg Prod.fst hb))
      · exact hsl x hx ((congrArg Prod.fst hb).symm.trans (congrArg Prod.fst ha))
    show (moveSpec g (allowedEdges ps) t (c, t) (c, t + 1)).or
      (waitSpec g t (c, t) (c, t + 1)) = some (1, 1)
    unfold moveSpec
    rw [hmv]
    show waitSpec g t (c, t) (c, t + 1) = some (1, 1)
    unfold waitSpec
    rw [if_pos ⟨rfl, rfl, hc⟩]
  · intro e he hal t ht
    constructor
    · have ht' : ((e.1.1, t) : TNode).2 < maxPathLen ps := ht
      rw [findD_buildTen g ps hpw, if_pos ht']
      have hp : movePred (allowedEdges ps) t ((e.1.1, t) : TNode)
          ((e.1.2, t + 1) : TNode) e = true :=
        decide_eq_true ⟨hal, Or.inl ⟨rfl, rfl⟩⟩
      show (moveSpec g (allowedEdges ps) t (e.1.1, t) (e.1.2, t + 1)).or
        (waitSpec g t (e.1.1, t) (e.1.2, t + 1)) = some (1, e.2)
      unfold moveSpec
      rw [find?_movePred_first _ _ _ _ _ _ hp hpw he]
      rfl
    · have ht' : ((e.1.2, t) : TNode).2 < maxPathLen ps := ht
      rw [findD_buildTen g ps hpw, if_pos ht']
      have hp : movePred (allowedEdges ps) t ((e.1.2, t) : TNode)
          ((e.1.1, t + 1) : TNode) e = true :=
        decide_eq_true ⟨hal, Or.inr ⟨rfl, rfl⟩⟩
      show (moveSpec g (allowedEdges ps) t (e.1.2, t) (e.1.1, t + 1)).or
        (waitSpec g t (e.1.2, t) (e.1.1, t + 1)) = some (1, e.2)
      unfold moveSpec
      rw [find?_movePred_first _ _ _ _ _ _ hp hpw he]
      rfl
  · intro a b cw hfind
    rw [findD_buildTen g ps hpw] at hfind
    by_cases hlt : a.2 < maxPathLen ps
    · rw [if_pos hlt] at hfind
      refine ?_
      cases hx : moveSpec g (allowedEdges ps) a.2 a b with
      | some val =>
        rw [hx] at hfind
        have hcw : cw = val := by
          have : Option.or (some val) (waitSpec g a.2 a b) = some val := rfl
          rw [this] at hfind
          exact (Option.some.inj hfind).symm
        unfold moveSpec at hx
        rw [Option.map_eq_some'] at hx
        obtain ⟨e, hfe, hval⟩ := hx
        have hpe := List.find?_some hfe
        have hme := List.mem_of_find?_eq_some hfe
        have hd := of_decide_eq_true hpe
        rcases hd.2 with ⟨ha, hb⟩ | ⟨ha, hb⟩
        · refine ⟨congrArg Prod.snd hb, hlt, Or.inr ⟨e, hme, hd.1, ?_, Or.inl
            ⟨congrArg Prod.fst ha, congrArg Prod.fst hb⟩⟩⟩
          rw [hcw, ← hval]
        · refine ⟨congrArg Prod.snd hb, hlt, Or.inr ⟨e, hme, hd.1, ?_, Or.inr
            ⟨congrArg Prod.fst ha, congrArg Prod.fst hb⟩⟩⟩
          rw [hcw, ← hval]
      | none =>
        rw [hx] at hfind
        have hws : waitSpec g a.2 a b = some cw := hfind
        unfold waitSpec at hws
        by_cases hcnd : a.2 = a.2 ∧ b = (a.1, a.2 + 1) ∧ a.1 ∈ g.nodes
        · rw [if_pos hcnd] at hws
          refine ⟨congrArg Prod.snd hcnd.2.1, hlt,
            Or.inl ⟨hcnd.2.1, hcnd.2.2, (Option.some.inj hws).symm⟩⟩
        · rw [if_neg hcnd] at hws
          exact Option.noConfusion hws
    · rw [if_neg hlt] at hfind
      exact Option.noConfusion hfind
  · intro c hc t ht
    show ((c, t) : TNode) ∈ (g.nodes.foldl (fun ten c => addDNode ten (c, maxPathLen ps))
      (tenCore g (allowedEdges ps) (maxPathLen ps))).nodes
    rw [mem_nodes_terminalFold]
    rcases Nat.lt_or_ge t (maxPathLen ps) with hlt | hge
    · exact Or.inl (mem_nodes_tenCore_of g _ _ c t hc (by omega) (by omega))
    · have : t = maxPathLen ps := by omega
      exact Or.inr ⟨c, hc, by rw [this]⟩
  · intro c hc
    constructor
    · show ((c, (buildTen g ps).2) : TNode) ∈
        (g.nodes.foldl (fun ten c => addDNode ten (c, maxPathLen ps))
          (tenCore g (allowedEdges ps) (maxPathLen ps))).nodes
      rw [mem_nodes_terminalFold]
      exact Or.inr ⟨c, hc, rfl⟩
    · intro b cw
      rw [findD_buildTen g ps hpw, if_neg (by exact lt_irrefl _)]
      exact fun hcc => Option.noConfusion hcc

/-- C5 (counterexample): a degenerate segment yields a self-loop base edge
with weight 0; when a candidate path repeats that coordinate, the self-loop
is allowed and `add_edge` overwrites the just-created wait edge
`((0,0),0) -> ((0,0),1)`, leaving weight 0 where the claim requires the
wait edge to keep capacity 1 and weight 1. -/
theorem claim_C5_counterexample :
    ((0 : Int), (0 : Int)) ∈
      (linesToGraph [(((0 : Int), (0 : Int)), ((0 : Int), (0 : Int)))]).nodes ∧
    (buildTen (linesToGraph [(((0 : Int), (0 : Int)), ((0 : Int), (0 : Int)))])
      [("A", [[((0 : Int), (0 : Int)), ((0 : Int), (0 : Int))]])]).2 = 2 ∧
    findD (buildTen (linesToGraph [(((0 : Int), (0 : Int)), ((0 : Int), (0 : Int)))])
        [("A", [[((0 : Int), (0 : Int)), ((0 : Int), (0 : Int))]])]).1
      ((0, 0), 0) ((0, 0), 1) = some (1, 0) := by
  refine ⟨by decide, by decide, by decide⟩

theorem claim_C5_build_ten_amended_witness :
    (∀ e ∈ (linesToGraph [(((0 : Int), (0 : Int)), ((40 : Int), (0 : Int)))]).edges,
      e.1.1 ≠ e.1.2) ∧
    (linesToGraph [(((0 : Int), (0 : Int)), ((40 : Int), (0 : Int)))]).edges.Pairwise
      (fun e1 e2 => sameKey e1.1 e2.1 = false) ∧
    BuildTenSpec (linesToGraph [(((0 : Int), (0 : Int)), ((40 : Int), (0 : Int)))])
      [("A", [[((0 : Int), (0 : Int)), ((40 : Int), (0 : Int))]])] :=
  ⟨by decide, by
    show ([((((0 : Int), (0 : Int)), ((40 : Int), (0 : Int))), (40 : Int))] :
      List ((Coord × Coord) × Int)).Pairwise _
    exact List.pairwise_singleton _ _,
    claim_C5_build_ten_amended _ _ (by decide) (by
      show ([((((0 : Int), (0 : Int)), ((40 : Int), (0 : Int))), (40 : Int))] :
        List ((Coord × Coord) × Int)).Pairwise _
      exact List.pairwise_singleton _ _)⟩

/-! ## Conflict-based min-cost-flow solver (`mcf_solver.py`)

`nx.network_simplex` is external library code (not in this repository); the
flow dictionary it returns each iteration is abstracted as an oracle.  All
repository code around it — candidate paths, TEN construction, constraint
application, `_extract_paths`, `_detect_conflict` and the `cbm_solve` outer
loop — is embedded below; the unbounded `while True` loop carries explicit
fuel.  The `ReservationTable.reserve` bookkeeping performed just before a
successful return touches no returned data and is omitted from the loop
embedding. -/

/-- Flow dictionary of `network_simplex`: per source node, the ordered map
of target nodes to flow units. -/
abbrev Flow := List (TNode × List (TNode × Int))

/-- The inner scan of `_extract_paths`: first outgoing entry with positive
flow; on success also returns the edge map with that entry decremented
(`edges[v] -= 1`). -/
def pickEdge : List (TNode × Int) → Option (TNode × List (TNode × Int))
  | [] => none
  | (v, f) :: rest =>
    if 0 < f then some (v, (v, f - 1) :: rest)
    else (pickEdge rest).map (fun r => (r.1, (v, f) :: r.2))

/-- Python `flow.get(node, {})`. -/
def flowGet (flow : Flow) (node : TNode) : List (TNode × Int) :=
  ((flow.find? (fun e => decide (e.1 = node))).map (·.2)).getD []

/-- Writing the decremented edge map back into the shared flow dict (the
in-place `edges[v] -= 1` of the source; only reached when `node` is a key
of the dict). -/
def flowSet (flow : Flow) (node : TNode) (edges : List (TNode × Int)) : Flow :=
  flow.map (fun e => if e.1 = node then (node, edges) else e)

/-- The per-agent walk of `_extract_paths` (`for _ in range(horizon)`),
threading the shared mutable flow dict. -/
def extractWalk : Nat → Flow → TNode → List Coord → (List Coord × Flow)
  | 0, flow, _, path => (path, flow)
  | fuel + 1, flow, node, path =>
    match pickEdge (flowGet flow node) with
    | none => (path, flow)
    | some (next, edges2) =>
      extractWalk fuel (flowSet flow node edges2) next (path ++ [next.1])

/-- Embedding of `_extract_paths`: walk every agent from `(start, 0)` in
order, all agents sharing (and decrementing) one flow dict. -/
def extractPaths (flow : Flow) (agents : List (String × Coord × Coord))
    (horizon : Nat) : List (String × List Coord) × Flow :=
  agents.foldl (fun acc ag =>
    let r := extractWalk horizon acc.2 (ag.2.1, 0) [ag.2.1]
    (acc.1 ++ [(ag.1, r.1)], r.2)) ([], flow)

/-- The inner agent loop of `_detect_conflict` at one time step: hold
agents shorter than `t` at their last coordinate (`path[-1]`, an index
error on an empty path), report the first coordinate already occupied. -/
def occupCheck (t : Nat) : List (String × List Coord) → List (Coord × String) →
    Except String (Option (String × String × Coord × Nat))
  | [], _ => .ok none
  | (ag, p) :: rest, occ =>
    match (if t < p.length then p.get? t else p.getLast?) with
    | none => .error "list index out of range"
    | some node =>
      match occ.find? (fun oc => decide (oc.1 = node)) with
      | some oc => .ok (some (oc.2, ag, node, t))
      | none => occupCheck t rest ((node, ag) :: occ)

/-- The `for t in range(max_len)` loop of `_detect_conflict`, over the list
of time steps still to scan. -/
def conflictScanT (paths : List (String × List Coord)) :
    List Nat → Except String (Option (String × String × Coord × Nat))
  | [] => .ok none
  | t :: ts =>
    match occupCheck t paths [] with
    | .error e => .error e
    | .ok (some c) => .ok (some c)
    | .ok none => conflictScanT paths ts

/-- Embedding of `_detect_conflict`.  `max(len(p) for p in paths.values())`
raises `ValueError` on an empty mapping; on a nonempty one it equals the
0-seeded fold because lengths are non-negative. -/
def detectConflict (paths : List (String × List Coord)) :
    Except String (Option (String × String × Coord × Nat)) :=
  match paths with
  | [] => .error "max() arg is an empty sequence"
  | _ =>
    conflictScanT paths (List.range ((paths.map (fun p => p.2.length)).foldl max 0))

/-- Per-agent constraint sets (`constraints` dict of `cbm_solve`). -/
abbrev Constraints := List (String × List (Coord × Nat))

/-- Python `constraints[agent].add((node, time))`: set insertion into the
named agent's entry. -/
def constraintsAdd (cs : Constraints) (agent : String) (x : Coord × Nat) : Constraints :=
  cs.map (fun c => if c.1 = agent then (c.1, if x ∈ c.2 then c.2 else c.2 ++ [x]) else c)

/-- Lookup of one agent's constraint set. -/
def lookupC (cs : Constraints) (agent : String) : Option (List (Coord × Nat)) :=
  (cs.find? (fun c => decide (c.1 = agent))).map (·.2)

/-- Embedding of `DiGraph.remove_node`: drop the node and every incident
edge. -/
def removeDNode (ten : DiGraph) (n : TNode) : DiGraph where
  nodes := ten.nodes.filter (fun x => decide (x ≠ n))
  edges := ten.edges.filter (fun e => decide (e.1 ≠ n ∧ e.2.1 ≠ n))

/-- The constraint-application loop of `cbm_solve`: remove every forbidden
time-expanded node still present. -/
def applyConstraints (ten : DiGraph) (cs : Constraints) : DiGraph :=
  cs.foldl (fun ten c => c.2.foldl (fun ten nt =>
    if (nt.1, nt.2) ∈ ten.nodes then removeDNode ten (nt.1, nt.2) else ten) ten) ten

/-- The path computation of one `cbm_solve` iteration: per-agent candidate
paths, the TEN, constraint removal, then `_extract_paths` on the flow the
(external) `network_simplex` solve produced for this iteration. -/
def iterPaths (g : UGraph) (k : Nat) (agents : List (String × Coord × Coord))
    (cs : Constraints) (flow : Flow) : List (String × List Coord) :=
  let pathsPer := agents.map (fun ag => (ag.1, kShortestPaths g ag.2.1 ag.2.2 k))
  let tenH := buildTen g pathsPer
  let _ten2 := applyConstraints tenH.1 cs
  (extractPaths flow agents tenH.2).1

/-- One iteration of the `while True` loop of `cbm_solve`: return the paths
when no conflict is found, otherwise grow the second conflicting agent's
constraint set. -/
def cbmIter (g : UGraph) (k : Nat) (agents : List (String × Coord × Coord))
    (cs : Constraints) (flow : Flow) :
    Except String (Sum (List (String × List Coord)) Constraints) :=
  match detectConflict (iterPaths g k agents cs flow) with
  | .error e => .error e
  | .ok none => .ok (.inl (iterPaths g k agents cs flow))
  | .ok (some (_, a2, node, time)) => .ok (.inr (constraintsAdd cs a2 (node, time)))

/-- `constraints = {a: set() for a in agents}`. -/
def initConstraints (agents : List (String × Coord × Coord)) : Constraints :=
  agents.map (fun ag => (ag.1, []))

/-- The constraint sets after `n` iterations of the `cbm_solve` outer loop
(unchanged when an iteration returns or raises). -/
def constraintsAfter (g : UGraph) (k : Nat) (agents : List (String × Coord × Coord))
    (oracle : Nat → Flow) : Nat → Constraints
  | 0 => initConstraints agents
  | n + 1 =>
    match cbmIter g k agents (constraintsAfter g k agents oracle n) (oracle n) with
    | .ok (.inr cs) => cs
    | _ => constraintsAfter g k agents oracle n

/-- The `while True` loop of `cbm_solve` with explicit fuel. -/
def cbmLoop (g : UGraph) (k : Nat) (agents : List (String × Coord × Coord))
    (oracle : Nat → Flow) :
    Nat → Nat → Constraints → Except String (List (String × List Coord))
  | 0, _, _ => .error "out of fuel"
  | fuel + 1, n, cs =>
    match cbmIter g k agents cs (oracle n) with
    | .error e => .error e
    | .ok (.inl paths) => .ok paths
    | .ok (.inr cs2) => cbmLoop g k agents oracle fuel (n + 1) cs2

/-- Embedding of `cbm_solve`. -/
def cbmSolve (g : UGraph) (agents : List (String × Coord × Coord)) (k : Nat)
    (oracle : Nat → Flow) (fuel : Nat) : Except String (List (String × List Coord)) :=
  cbmLoop g k agents oracle fuel 0 (initConstraints agents)

/-- The agent filter of the CLI `plan` command: keep exactly the agents with
both a start and a goal. -/
def cliAgents (agents : List (String × (Option Coord × Option Coord))) :
    List (String × Coord × Coord) :=
  agents.filterMap (fun ag => match ag.2.1, ag.2.2 with
    | some s, some gl => some (ag.1, s, gl)
    | _, _ => none)

theorem extractPaths_fold_names (agents : List (String × Coord × Coord))
    (horizon : Nat) :
    ∀ (acc : List (String × List Coord)) (fl : Flow),
      ((agents.foldl (fun acc ag =>
          let r := extractWalk horizon acc.2 (ag.2.1, 0) [ag.2.1]
          (acc.1 ++ [(ag.1, r.1)], r.2)) (acc, fl)).1).map Prod.fst =
        acc.map Prod.fst ++ agents.map Prod.fst := by
  induction agents with
  | nil =>
    intro acc fl
    simp
  | cons ag rest ih =>
    intro acc fl
    simp only [List.foldl_cons]
    rw [ih]
    simp

theorem iterPaths_names (g : UGraph) (k : Nat) (agents : List (String × Coord × Coord))
    (cs : Constraints) (flow : Flow) :
    (iterPaths g k agents cs flow).map Prod.fst = agents.map Prod.fst := by
  show ((extractPaths flow agents
    (buildTen g (agents.map (fun ag => (ag.1, kShortestPaths g ag.2.1 ag.2.2 k)))).2).1).map
      Prod.fst = _
  unfold extractPaths
  rw [extractPaths_fold_names]
  simp

theorem occupCheck_ne (t : Nat) (l : List (String × List Coord)) :
    ∀ (occ : List (Coord × String)) (a1 a2 : String) (node : Coord) (tt : Nat),
      (occ.map Prod.snd ++ l.map Prod.fst).Nodup →
      occupCheck t l occ = .ok (some (a1, a2, node, tt)) → a1 ≠ a2 := by
  induction l with
  | nil =>
    intro occ a1 a2 node tt _ h
    exact Option.noConfusion (Except.ok.inj h)
  | cons hd rest ih =>
    intro occ a1 a2 node tt hnd h
    obtain ⟨ag, p⟩ := hd
    unfold occupCheck at h
    cases hnode : (if t < p.length then p.get? t else p.getLast?) with
    | none =>
      rw [hnode] at h
      exact Except.noConfusion h
    | some nd =>
      rw [hnode] at h
      have h2 : (match occ.find? (fun oc => decide (oc.1 = nd)) with
          | some oc => (Except.ok (some (oc.2, ag, nd, t)) :
              Except String (Option (String × String × Coord × Nat)))
          | none => occupCheck t rest ((nd, ag) :: occ)) =
          .ok (some (a1, a2, node, tt)) := h
      cases hocc : occ.find? (fun oc => decide (oc.1 = nd)) with
      | some oc =>
        rw [hocc] at h2
        have h3 := Option.some.inj (Except.ok.inj h2)
        have ha1 : a1 = oc.2 := (congrArg (fun q => q.1) h3).symm
        have ha2 : a2 = ag := (congrArg (fun q => q.2.1) h3).symm
        intro hcon
        have hmem1 : oc.2 ∈ occ.map Prod.snd :=
          List.mem_map_of_mem Prod.snd (List.mem_of_find?_eq_some hocc)
        have hdisj := List.disjoint_of_nodup_append hnd
        have hoceq : oc.2 = ag := (ha1.symm.trans hcon).trans ha2
        exact hdisj hmem1 (by
          rw [hoceq]
          exact List.mem_cons_self _ _)
      | none =>
        rw [hocc] at h2
        refine ih ((nd, ag) :: occ) a1 a2 node tt ?_ h2
        have hperm : (occ.map Prod.snd ++ ag :: rest.map Prod.fst).Perm
            (ag :: (occ.map Prod.snd ++ rest.map Prod.fst)) :=
          List.perm_middle
        exact hperm.nodup hnd

theorem conflictScanT_ne (paths : List (String × List Coord))
    (a1 a2 : String) (node : Coord) (tt : Nat)
    (hnd : (paths.map Prod.fst).Nodup) :
    ∀ ts : List Nat, conflictScanT paths ts = .ok (some (a1, a2, node, tt)) →
      a1 ≠ a2 := by
  intro ts
  induction ts with
  | nil =>
    intro h
    exact Option.noConfusion (Except.ok.inj h)
  | cons t ts ih =>
    intro h
    unfold conflictScanT at h
    cases hc : occupCheck t paths [] with
    | error e =>
      rw [hc] at h
      exact Except.noConfusion h
    | ok r =>
      cases r with
      | some c =>
        rw [hc] at h
        have hceq := Option.some.inj (Except.ok.inj h)
        exact occupCheck_ne t paths [] a1 a2 node tt (by simpa using hnd)
          (hceq ▸ hc)
      | none =>
        rw [hc] at h
        exact ih h

theorem detectConflict_ne (paths : List (String × List Coord))
    (a1 a2 : String) (node : Coord) (tt : Nat)
    (hnd : (paths.map Prod.fst).Nodup)
    (h : detectConflict paths = .ok (some (a1, a2, node, tt))) : a1 ≠ a2 := by
  cases paths with
  | nil => exact Except.noConfusion h
  | cons p rest =>
    exact conflictScanT_ne (p :: rest) a1 a2 node tt hnd _ h

theorem lookupC_constraintsAdd (cs : Constraints) (agent a : String) (x : Coord × Nat) :
    lookupC (constraintsAdd cs agent x) a =
      (lookupC cs a).map
        (fun s => if a = agent then (if x ∈ s then s else s ++ [x]) else s) := by
  induction cs with
  | nil => rfl
  | cons c rest ih =>
    show lookupC ((if c.1 = agent then
        (c.1, if x ∈ c.2 then c.2 else c.2 ++ [x]) else c) :: constraintsAdd rest agent x) a = _
    by_cases hca : c.1 = a
    · by_cases hcg : c.1 = agent
      · have hag : a = agent := hca.symm.trans hcg
        rw [if_pos hcg]
        unfold lookupC
        rw [@List.find?_cons_of_pos _ (fun d => decide (d.1 = a))
            (c.1, if x ∈ c.2 then c.2 else c.2 ++ [x]) _ (decide_eq_true hca),
          @List.find?_cons_of_pos _ (fun d => decide (d.1 = a)) c _ (decide_eq_true hca)]
        simp [hag]
      · have hag : ¬ a = agent := fun hc => hcg (hca.trans hc)
        rw [if_neg hcg]
        unfold lookupC
        rw [@List.find?_cons_of_pos _ (fun d => decide (d.1 = a)) c _ (decide_eq_true hca),
          @List.find?_cons_of_pos _ (fun d => decide (d.1 = a)) c _ (decide_eq_true hca)]
        simp [hag]
    · have hhead : ∀ y : String × List (Coord × Nat), y.1 = c.1 →
          ¬ (fun d : String × List (Coord × Nat) => decide (d.1 = a)) y = true := by
        intro y hy hc
        exact hca (hy ▸ of_decide_eq_true hc)
      by_cases hcg : c.1 = agent
      · rw [if_pos hcg]
        unfold lookupC
        rw [@List.find?_cons_of_neg _ (fun d => decide (d.1 = a))
            (c.1, if x ∈ c.2 then c.2 else c.2 ++ [x]) _ (hhead _ rfl),
          @List.find?_cons_of_neg _ (fun d => decide (d.1 = a)) c _ (hhead _ rfl)]
        exact ih
      · rw [if_neg hcg]
        unfold lookupC
        rw [@List.find?_cons_of_neg _ (fun d => decide (d.1 = a)) c _ (hhead _ rfl),
          @List.find?_cons_of_neg _ (fun d => decide (d.1 = a)) c _ (hhead _ rfl)]
        exact ih

theorem lookupC_initConstraints (agents : List (String × Coord × Coord)) (a : String)
    (ha : a ∈ agents.map Prod.fst) :
    lookupC (initConstraints agents) a = some [] := by
  induction agents with
  | nil => simp at ha
  | cons ag rest ih =>
    show lookupC ((ag.1, ([] : List (Coord × Nat))) :: initConstraints rest) a = some []
    by_cases hc : ag.1 = a
    · unfold lookupC
      rw [@List.find?_cons_of_pos _ (fun c => decide (c.1 = a))
          (ag.1, ([] : List (Coord × Nat))) _ (decide_eq_true hc)]
      rfl
    · unfold lookupC
      rw [@List.find?_cons_of_neg _ (fun c => decide (c.1 = a))
          (ag.1, ([] : List (Coord × Nat))) _ (fun hd => hc (of_decide_eq_true hd))]
      have ha2 : a ∈ rest.map Prod.fst := by
        simp only [List.map_cons, List.mem_cons] at ha
        rcases ha with h1 | h2
        · exact absurd h1.symm hc
        · exact h2
      exact ih ha2

theorem lookupC_constraintsAdd_ne (cs : Constraints) (a2 : String) (x : Coord × Nat)
    (a : String) (hne : a ≠ a2) :
    lookupC (constraintsAdd cs a2 x) a = lookupC cs a := by
  rw [lookupC_constraintsAdd]
  cases lookupC cs a with
  | none => rfl
  | some s => simp [hne]

theorem lookupC_subset_constraintsAdd (cs : Constraints) (a2 : String) (x : Coord × Nat)
    (a : String) (s : List (Coord × Nat)) (h : lookupC cs a = some s) :
    ∃ s2, lookupC (constraintsAdd cs a2 x) a = some s2 ∧ s ⊆ s2 := by
  rw [lookupC_constraintsAdd, h]
  by_cases hx : a = a2
  · by_cases hxm : x ∈ s
    · exact ⟨s, by simp [hx, hxm], fun y hy => hy⟩
    · exact ⟨s ++ [x], by simp [hx, hxm], List.subset_append_left s [x]⟩
  · exact ⟨s, by simp [hx], fun y hy => hy⟩

theorem constraintsAfter_succ (g : UGraph) (k : Nat)
    (agents : List (String × Coord × Coord)) (oracle : Nat → Flow) (n : Nat) :
    constraintsAfter g k agents oracle (n + 1) =
      match cbmIter g k agents (constraintsAfter g k agents oracle n) (oracle n) with
      | .ok (.inr cs) => cs
      | _ => constraintsAfter g k agents oracle n := rfl

theorem constraintsAfter_succ_conflict (g : UGraph) (k : Nat)
    (agents : List (String × Coord × Coord)) (oracle : Nat → Flow) (n : Nat)
    (a1 a2 : String) (nd : Coord) (tm : Nat)
    (hdc : detectConflict (iterPaths g k agents
        (constraintsAfter g k agents oracle n) (oracle n)) =
      .ok (some (a1, a2, nd, tm))) :
    constraintsAfter g k agents oracle (n + 1) =
      constraintsAdd (constraintsAfter g k agents oracle n) a2 (nd, tm) := by
  have hit : cbmIter g k agents (constraintsAfter g k agents oracle n) (oracle n) =
      .ok (.inr (constraintsAdd (constraintsAfter g k agents oracle n) a2 (nd, tm))) := by
    unfold cbmIter
    rw [hdc]
  rw [constraintsAfter_succ, hit]

theorem constraintsAfter_mono (g : UGraph) (k : Nat)
    (agents : List (String × Coord × Coord)) (oracle : Nat → Flow) (n : Nat)
    (a : String) (s : List (Coord × Nat))
    (h : lookupC (constraintsAfter g k agents oracle n) a = some s) :
    ∃ s2, lookupC (constraintsAfter g k agents oracle (n + 1)) a = some s2 ∧
      s ⊆ s2 := by
  cases hdc : detectConflict (iterPaths g k agents
      (constraintsAfter g k agents oracle n) (oracle n)) with
  | error e =>
    have hit : cbmIter g k agents (constraintsAfter g k agents oracle n) (oracle n) =
        .error e := by
      unfold cbmIter
      rw [hdc]
    have hstep : constraintsAfter g k agents oracle (n + 1) =
        constraintsAfter g k agents oracle n := by
      rw [constraintsAfter_succ, hit]
    exact ⟨s, hstep ▸ h, fun y hy => hy⟩
  | ok r =>
    cases r with
    | none =>
      have hit : cbmIter g k agents (constraintsAfter g k agents oracle n) (oracle n) =
          .ok (.inl (iterPaths g k agents
            (constraintsAfter g k agents oracle n) (oracle n))) := by
        unfold cbmIter
        rw [hdc]
      have hstep : constraintsAfter g k agents oracle (n + 1) =
          constraintsAfter g k agents oracle n := by
        rw [constraintsAfter_succ, hit]
      exact ⟨s, hstep ▸ h, fun y hy => hy⟩
    | some c =>
      obtain ⟨b1, b2, nd, tm⟩ := c
      have hstep := constraintsAfter_succ_conflict g k agents oracle n b1 b2 nd tm hdc
      rw [hstep]
      exact lookupC_subset_constraintsAdd _ b2 (nd, tm) a s h

/-- The constraint-evolution invariants of the `cbm_solve` outer loop: every
agent's forbidden set starts empty; when an iteration detects a conflict
`(a1, a2, nd, tm)` the two agents differ, the new constraint state is exactly
the old one with `(nd, tm)` inserted into `a2`'s set, and every other agent's
set (in particular `a1`'s) is unchanged; and from one iteration to the next no
agent's set loses an element. -/
def ConstraintEvolutionSpec (g : UGraph) (k : Nat)
    (agents : List (String × Coord × Coord)) (oracle : Nat → Flow) : Prop :=
  (∀ a ∈ agents.map Prod.fst,
    lookupC (constraintsAfter g k agents oracle 0) a = some []) ∧
  (∀ n a1 a2 nd tm,
    detectConflict (iterPaths g k agents
        (constraintsAfter g k agents oracle n) (oracle n)) =
      .ok (some (a1, a2, nd, tm)) →
    a1 ≠ a2 ∧
    constraintsAfter g k agents oracle (n + 1) =
      constraintsAdd (constraintsAfter g k agents oracle n) a2 (nd, tm) ∧
    ∀ a, a ≠ a2 →
      lookupC (constraintsAfter g k agents oracle (n + 1)) a =
        lookupC (constraintsAfter g k agents oracle n) a) ∧
  (∀ n a s, lookupC (constraintsAfter g k agents oracle n) a = some s →
    ∃ s2, lookupC (constraintsAfter g k agents oracle (n + 1)) a = some s2 ∧
      s ⊆ s2)

/-- C6: across the iterations of `cbm_solve`'s outer loop (flows supplied by
the external `network_simplex` abstracted as an oracle, agent names distinct
as Python dict keys are), a detected conflict `(a1, a2, nd, tm)` has
`a1 ≠ a2` and adds `(nd, tm)` to the second agent's forbidden set only,
leaving every other agent's set — in particular the first agent's —
unchanged; every forbidden set starts empty and never loses an element from
one iteration to the next. -/
theorem claim_C6_constraint_evolution (g : UGraph) (k : Nat)
    (agents : List (String × Coord × Coord)) (oracle : Nat → Flow)
    (hnd : (agents.map Prod.fst).Nodup) :
    ConstraintEvolutionSpec g k agents oracle := by
  refine ⟨?_, ?_, ?_⟩
  · intro a ha
    exact lookupC_initConstraints agents a ha
  · intro n a1 a2 nd tm hdc
    have hne : a1 ≠ a2 := by
      refine detectConflict_ne _ a1 a2 nd tm ?_ hdc
      rw [iterPaths_names]
      exact hnd
    have hstep := constraintsAfter_succ_conflict g k agents oracle n a1 a2 nd tm hdc
    refine ⟨hne, hstep, ?_⟩
    intro a hane
    rw [hstep]
    exact lookupC_constraintsAdd_ne _ a2 (nd, tm) a hane
  · intro n a s h
    exact constraintsAfter_mono g k agents oracle n a s h

theorem claim_C6_constraint_evolution_witness :
    ConstraintEvolutionSpec (linesToGraph [(((0 : Int), (0 : Int)), ((40 : Int), (0 : Int)))])
      3 [("A", (((0 : Int), (0 : Int)), ((40 : Int), (0 : Int))))] (fun _ => []) :=
  claim_C6_constraint_evolution _ _ _ _ (by simp)

/-- C10: with the empty agent mapping — as the `plan` command produces when no
agent of the map has both a start and a goal, since its filter drops every
such agent — `cbm_solve` does not return an empty path mapping: with fuel
left, `_detect_conflict` takes `max` over an empty sequence of path lengths
and raises `ValueError`, and no fuel budget ever makes the solve return
`.ok`. -/
theorem claim_C10_empty_agents :
    (∀ (g : UGraph) (k : Nat) (oracle : Nat → Flow) (fuel : Nat), 0 < fuel →
      cbmSolve g [] k oracle fuel = .error "max() arg is an empty sequence") ∧
    (∀ (g : UGraph) (k : Nat) (oracle : Nat → Flow) (fuel : Nat)
      (paths : List (String × List Coord)), cbmSolve g [] k oracle fuel ≠ .ok paths) ∧
    (∀ agents : List (String × (Option Coord × Option Coord)),
      (∀ ag ∈ agents, ag.2.1 = none ∨ ag.2.2 = none) → cliAgents agents = []) := by
  refine ⟨?_, ?_, ?_⟩
  · intro g k oracle fuel hf
    cases fuel with
    | zero => exact absurd hf (lt_irrefl 0)
    | succ m => rfl
  · intro g k oracle fuel paths h
    cases fuel with
    | zero =>
      have h2 : (Except.error "out of fuel" :
          Except String (List (String × List Coord))) = .ok paths := h
      exact Except.noConfusion h2
    | succ m =>
      have h2 : (Except.error "max() arg is an empty sequence" :
          Except String (List (String × List Coord))) = .ok paths := h
      exact Except.noConfusion h2
  · intro agents hall
    refine List.filterMap_eq_nil.mpr ?_
    intro ag hag
    obtain ⟨nm, o1, o2⟩ := ag
    rcases hall ⟨nm, o1, o2⟩ hag with h1 | h2
    · cases o1 with
      | none =>
        cases o2 with
        | none => rfl
        | some gl => rfl
      | some s => exact Option.noConfusion h1
    · cases o2 with
      | none =>
        cases o1 with
        | none => rfl
        | some s => rfl
      | some gl => exact Option.noConfusion h2

theorem claim_C10_empty_agents_witness :
    cbmSolve (linesToGraph [(((0 : Int), (0 : Int)), ((40 : Int), (0 : Int)))]) [] 3
        (fun _ => []) 5 = .error "max() arg is an empty sequence" ∧
    cliAgents [("A", ((some ((0, 0) : Coord)), (none : Option Coord)))] = [] :=
  ⟨claim_C10_empty_agents.1 (linesToGraph [(((0 : Int), (0 : Int)), ((40 : Int), (0 : Int)))])
      3 (fun _ => []) 5 (by decide),
    claim_C10_empty_agents.2.2 [("A", ((some ((0, 0) : Coord)), (none : Option Coord)))] (by
      intro ag hag
      rw [List.mem_singleton] at hag
      subst hag
      exact Or.inr rfl)⟩

/-! ## Map I/O (`map_io.py`)

`load_map` parses a JSON/YAML file (the suffix dispatch and file reading are
I/O and stay outside the embedding; `DiskMap` is the parsed document) and
returns a dictionary of geometry lists, parallel `*_meta` lists and agents;
`save_map` recombines them.  Scalar JSON payloads the code never inspects
(layer records, `attributes`, `style`) are carried as `JVal` key-value lists.
Each geometry collection is either a list of per-item records (the canonical
form, `isinstance(raw[0], dict)`) or a legacy bare list of raw geometry; an
empty list takes the legacy branch in Python, which produces the same empty
output as the record branch, so `loadGeom` treats `.recs []` uniformly.
Optional record fields are `Option`s with `none` for an absent key; the
`id` value `save_map` writes for a record that had none is the JSON `null`,
which `entry.get("id")` loads back as `None` (`none` here).  Lines are
destructured as a pair of coordinate lists (`p1, p2 = entry.get("points",
[[0, 0], [0, 0]])`); nodes and obstacles are bare coordinate lists. -/

inductive JVal where
  | s : String → JVal
  | i : Int → JVal
  | b : Bool → JVal
deriving DecidableEq

/-- Opaque JSON-object payload (`attributes`, `style`, a layer record). -/
abbrev Attrs := List (String × JVal)

abbrev LayerRec := List (String × JVal)

/-- The layer list `load_map` defaults to when the file has no `layers`. -/
def defaultLayer : LayerRec :=
  [("name", JVal.s "Default"), ("color", JVal.s "#000000"), ("visible", JVal.b true)]

/-- One loaded `*_meta` entry: `{"id": ..., "layer": ..., "attributes": ...,
"style": ...}`. -/
structure ItemMeta where
  id : Option Int
  layer : String
  attributes : Attrs
  style : Attrs
deriving DecidableEq

/-- One canonical per-item record of the file, geometry payload plus the four
optional meta keys (`none` = key absent). -/
structure DiskRec (γ : Type) where
  geom : Option γ
  id : Option Int
  layer : Option String
  attributes : Option Attrs
  style : Option Attrs
deriving DecidableEq

/-- A geometry collection on disk: canonical per-item records, or the legacy
bare list of raw geometry values. -/
inductive GeomList (γ : Type) where
  | recs : List (DiskRec γ) → GeomList γ
  | raw : List γ → GeomList γ
deriving DecidableEq

/-- One agent on disk and as loaded: `start`/`goal` kept when present
(`{k: tuple(v[k]) for k in ("start", "goal") if k in v}`; the tuple/list
conversions are identities here). -/
structure AgentRec where
  start : Option (List Int)
  goal : Option (List Int)
deriving DecidableEq

/-- The parsed map file; `none` = top-level key absent (`data.get` default). -/
structure DiskMap where
  layers : Option (List LayerRec)
  lines : Option (GeomList (List Int × List Int))
  nodes : Option (GeomList (List Int))
  obstacles : Option (GeomList (List Int))
  agents : Option (List (String × AgentRec))
deriving DecidableEq

/-- The dictionary `load_map` returns. -/
structure LoadedMap where
  layers : List LayerRec
  lines : List (List Int × List Int)
  line_meta : List ItemMeta
  nodes : List (List Int)
  node_meta : List ItemMeta
  obstacles : List (List Int)
  obstacle_meta : List ItemMeta
  agents : List (String × AgentRec)
deriving DecidableEq

/-- The synthetic meta entry of the legacy branch at index `i`:
`{"id": idx + 1, "layer": "Default", "attributes": {}, "style": {}}`. -/
def legacyMeta (i : Nat) : ItemMeta :=
  ⟨some ((i : Int) + 1), "Default", [], []⟩

/-- The meta entry loaded from a canonical record: `entry.get("id")`,
`entry.get("layer", "Default")`, `entry.get("attributes", {})`,
`entry.get("style", {})`. -/
def metaOfRec {γ : Type} (r : DiskRec γ) : ItemMeta :=
  ⟨r.id, r.layer.getD "Default", r.attributes.getD [], r.style.getD []⟩

/-- One geometry collection loaded: geometry list and parallel meta list,
from the canonical branch or the legacy branch of `load_map`. -/
def loadGeom {γ : Type} (dflt : γ) : GeomList γ → List γ × List ItemMeta
  | .recs l => (l.map (fun e => e.geom.getD dflt), l.map metaOfRec)
  | .raw l => (l, (List.range l.length).map legacyMeta)

/-- Embedding of `load_map` on the parsed document. -/
def loadMap (d : DiskMap) : LoadedMap where
  layers := d.layers.getD [defaultLayer]
  lines := (loadGeom (([0, 0], [0, 0]) : List Int × List Int) (d.lines.getD (.raw []))).1
  line_meta := (loadGeom (([0, 0], [0, 0]) : List Int × List Int) (d.lines.getD (.raw []))).2
  nodes := (loadGeom ([0, 0] : List Int) (d.nodes.getD (.raw []))).1
  node_meta := (loadGeom ([0, 0] : List Int) (d.nodes.getD (.raw []))).2
  obstacles := (loadGeom ([0, 0, 0, 0] : List Int) (d.obstacles.getD (.raw []))).1
  obstacle_meta := (loadGeom ([0, 0, 0, 0] : List Int) (d.obstacles.getD (.raw []))).2
  agents := d.agents.getD []

/-- One record `_combine_collection` writes: the geometry payload under its
fixed key, then the meta fields (`entry.update(m)` — all four keys written). -/
def saveRec {γ : Type} (g : γ) (m : ItemMeta) : DiskRec γ :=
  ⟨some g, m.id, some m.layer, some m.attributes, some m.style⟩

/-- `_combine_collection`: zip geometry with meta (Python `zip` truncates to
the shorter list, as `List.zip` does). -/
def saveGeom {γ : Type} (geoms : List γ) (metas : List ItemMeta) : List (DiskRec γ) :=
  (geoms.zip metas).map (fun p => saveRec p.1 p.2)

/-- Embedding of `save_map`: the serialized document. -/
def saveMap (m : LoadedMap) : DiskMap where
  layers := some m.layers
  lines := some (.recs (saveGeom m.lines m.line_meta))
  nodes := some (.recs (saveGeom m.nodes m.node_meta))
  obstacles := some (.recs (saveGeom m.obstacles m.obstacle_meta))
  agents := some m.agents

/-- A canonical per-item record: geometry and all four meta keys present. -/
def recOk {γ : Type} (r : DiskRec γ) : Bool :=
  r.geom.isSome && r.id.isSome && r.layer.isSome && r.attributes.isSome && r.style.isSome

/-- A geometry collection in canonical per-item form. -/
def glOk {γ : Type} : GeomList γ → Bool
  | .recs l => l.all recOk
  | .raw _ => false

/-- A map file in canonical per-item form: every top-level key present and
every geometry collection a list of fully populated records. -/
def wellFormedDisk (d : DiskMap) : Bool :=
  d.layers.isSome && ((d.lines.map glOk).getD false) && ((d.nodes.map glOk).getD false)
    && ((d.obstacles.map glOk).getD false) && d.agents.isSome

/-- A canonical map file used as a concrete instance. -/
def canonicalExample : DiskMap :=
  ⟨some [defaultLayer],
    some (.recs [⟨some ([0, 0], [40, 0]), some 1, some "Default", some [], some []⟩]),
    some (.recs [⟨some [0, 0], some 1, some "Default", some [], some []⟩]),
    some (.recs [⟨some [0, 0, 40, 40], some 1, some "Default", some [], some []⟩]),
    some [("A", ⟨some [0, 0], some [40, 0]⟩)]⟩

/-- The legacy map file `{"lines": [[[0, 0], [40, 0]]]}`. -/
def legacyExample : DiskMap :=
  ⟨none, some (.raw [([0, 0], [40, 0])]), none, none, none⟩

theorem save_load_rec {γ : Type} (dflt : γ) (e : DiskRec γ) (h : recOk e = true) :
    saveRec (e.geom.getD dflt) (metaOfRec e) = e := by
  obtain ⟨g1, i1, l1, a1, s1⟩ := e
  unfold recOk at h
  simp only [Bool.and_eq_true, Option.isSome_iff_exists] at h
  obtain ⟨⟨⟨⟨⟨gv, hg⟩, ⟨iv, hi⟩⟩, ⟨lv, hl⟩⟩, ⟨av, ha⟩⟩, ⟨sv, hs⟩⟩ := h
  subst hg hi hl ha hs
  rfl

theorem saveGeom_loadGeom {γ : Type} (dflt : γ) (l : List (DiskRec γ)) :
    l.all recOk = true →
    saveGeom (loadGeom dflt (.recs l)).1 (loadGeom dflt (.recs l)).2 = l := by
  induction l with
  | nil => intro _; rfl
  | cons e rest ih =>
    intro h
    simp only [List.all_cons, Bool.and_eq_true] at h
    show saveRec (e.geom.getD dflt) (metaOfRec e) ::
      saveGeom (rest.map (fun x => x.geom.getD dflt)) (rest.map metaOfRec) = e :: rest
    rw [save_load_rec dflt e h.1]
    exact congrArg (fun t => e :: t) (ih h.2)

/-- C7: `save_map` after `load_map` reproduces a map file already in
canonical per-item form — same layers, same geometry (re-embedded under its
fixed key: `points` for lines, `point` for nodes, `rect` for obstacles),
same ids, layers, attributes, styles and agents, in the same order. -/
theorem claim_C7_save_load_roundtrip (d : DiskMap) (h : wellFormedDisk d = true) :
    saveMap (loadMap d) = d := by
  obtain ⟨lay, ln, nds, obs, ag⟩ := d
  simp only [wellFormedDisk, Bool.and_eq_true] at h
  obtain ⟨⟨⟨⟨hlay, hln⟩, hnds⟩, hobs⟩, hag⟩ := h
  cases lay with
  | none => exact Bool.noConfusion hlay
  | some L =>
  cases ln with
  | none => exact Bool.noConfusion hln
  | some gl1 =>
  cases gl1 with
  | raw l => exact Bool.noConfusion hln
  | recs l1 =>
  cases nds with
  | none => exact Bool.noConfusion hnds
  | some gl2 =>
  cases gl2 with
  | raw l => exact Bool.noConfusion hnds
  | recs l2 =>
  cases obs with
  | none => exact Bool.noConfusion hobs
  | some gl3 =>
  cases gl3 with
  | raw l => exact Bool.noConfusion hobs
  | recs l3 =>
  cases ag with
  | none => exact Bool.noConfusion hag
  | some A =>
  have hl1 : l1.all recOk = true := by simpa [glOk] using hln
  have hl2 : l2.all recOk = true := by simpa [glOk] using hnds
  have hl3 : l3.all recOk = true := by simpa [glOk] using hobs
  have e1 : saveMap (loadMap (DiskMap.mk (some L) (some (.recs l1)) (some (.recs l2))
      (some (.recs l3)) (some A))) =
    DiskMap.mk (some L)
      (some (.recs (saveGeom
        (loadGeom (([0, 0], [0, 0]) : List Int × List Int) (.recs l1)).1
        (loadGeom (([0, 0], [0, 0]) : List Int × List Int) (.recs l1)).2)))
      (some (.recs (saveGeom
        (loadGeom ([0, 0] : List Int) (.recs l2)).1
        (loadGeom ([0, 0] : List Int) (.recs l2)).2)))
      (some (.recs (saveGeom
        (loadGeom ([0, 0, 0, 0] : List Int) (.recs l3)).1
        (loadGeom ([0, 0, 0, 0] : List Int) (.recs l3)).2)))
      (some A) := rfl
  rw [e1, saveGeom_loadGeom (([0, 0], [0, 0]) : List Int × List Int) l1 hl1,
    saveGeom_loadGeom ([0, 0] : List Int) l2 hl2,
    saveGeom_loadGeom ([0, 0, 0, 0] : List Int) l3 hl3]

theorem claim_C7_save_load_roundtrip_witness :
    wellFormedDisk canonicalExample = true ∧
    saveMap (loadMap canonicalExample) = canonicalExample :=
  ⟨rfl, claim_C7_save_load_roundtrip canonicalExample rfl⟩

/-- C8: on a geometry collection in legacy bare-list form `load_map` returns
the raw geometry unchanged and synthesizes metadata in geometry order —
sequential ids starting at 1, layer `"Default"`, empty attributes and style;
in particular `{"lines": [[[0, 0], [40, 0]]]}` loads to one line with meta
`{id: 1, layer: "Default", attributes: {}, style: {}}`. -/
theorem claim_C8_legacy_meta :
    (∀ (lay : Option (List LayerRec)) (l1 : List (List Int × List Int))
      (g2 g3 : Option (GeomList (List Int))) (ag : Option (List (String × AgentRec))),
      (loadMap ⟨lay, some (.raw l1), g2, g3, ag⟩).lines = l1 ∧
      (loadMap ⟨lay, some (.raw l1), g2, g3, ag⟩).line_meta =
        (List.range l1.length).map legacyMeta) ∧
    (∀ (lay : Option (List LayerRec)) (g1 : Option (GeomList (List Int × List Int)))
      (l2 : List (List Int)) (g3 : Option (GeomList (List Int)))
      (ag : Option (List (String × AgentRec))),
      (loadMap ⟨lay, g1, some (.raw l2), g3, ag⟩).nodes = l2 ∧
      (loadMap ⟨lay, g1, some (.raw l2), g3, ag⟩).node_meta =
        (List.range l2.length).map legacyMeta) ∧
    (∀ (lay : Option (List LayerRec)) (g1 : Option (GeomList (List Int × List Int)))
      (g2 : Option (GeomList (List Int))) (l3 : List (List Int))
      (ag : Option (List (String × AgentRec))),
      (loadMap ⟨lay, g1, g2, some (.raw l3), ag⟩).obstacles = l3 ∧
      (loadMap ⟨lay, g1, g2, some (.raw l3), ag⟩).obstacle_meta =
        (List.range l3.length).map legacyMeta) ∧
    (legacyMeta 0 = ⟨some 1, "Default", [], []⟩ ∧
      (loadMap legacyExample).lines = [([0, 0], [40, 0])] ∧
      (loadMap legacyExample).line_meta = [⟨some 1, "Default", [], []⟩]) :=
  ⟨fun _ _ _ _ _ => ⟨rfl, rfl⟩, fun _ _ _ _ _ => ⟨rfl, rfl⟩,
    fun _ _ _ _ _ => ⟨rfl, rfl⟩, by decide, rfl, by decide⟩

end MapTen
